import Mathlib

/-!
Verification of `TPVToggle/scripts/version_updater.py`.

The script is embedded shallowly: file contents are `List Char`, the three
file-manipulating operations (`get_current_version` / `bump_version`,
`update_readme_txt`, `update_changelog`) become pure functions from the old
file content to the new one, with `Option` marking the paths on which the
Python process exits (or raises) before writing.  The regular expressions
used by the script (`#define\s+KEY\s+(\d+)`, the changelog link pattern, and
the link-removal pattern) are deterministic: every greedy character class in
them is followed by a character that the class cannot match, so they are
embedded as explicit maximal-munch scanners; `re.search`/`re.sub`/
`re.finditer` become leftmost / leftmost-non-overlapping scans.

Character classes are the ASCII core of Python's: `\s` and `str.strip` use
space, tab, newline, vertical tab, form feed and carriage return; `\d` and
`int()` on the digit strings produced by the script's regex groups are plain
decimal digits.
-/

set_option maxRecDepth 100000

/-- Convert a string literal to the `List Char` representation used for file
contents throughout this development. -/
def sL (s : String) : List Char := s.toList

/-- ASCII core of Python's whitespace class `\s` (also used by `str.strip`). -/
def isWSCh (c : Char) : Bool :=
  c = ' ' || c = '\t' || c = '\n' || c = '\x0b' || c = '\x0c' || c = '\r'

/-- Decimal digit, Python's `[0-9]`. -/
def isDigitCh (c : Char) : Bool := '0' ≤ c && c ≤ '9'

/-- Numeric value of a string of decimal digits, folding left as Python's
`int()` does on a match of `\d+`. -/
def digitsToNat (s : List Char) : Nat :=
  s.foldl (fun a c => a * 10 + (c.toNat - 48)) 0

/-- The decimal digit character for `n < 10`. -/
def digitChar10 (n : Nat) : Char := Char.ofNat (48 + n)

/-- Fuel-driven decimal rendering of a natural number (the embedding of
Python's `f"{n}"` for a non-negative int).  Fuel `n+1` always suffices. -/
def natToDigitsAux : Nat → Nat → List Char
  | 0, _ => []
  | fuel + 1, n =>
    if n < 10 then [digitChar10 n]
    else natToDigitsAux fuel (n / 10) ++ [digitChar10 (n % 10)]

/-- Decimal rendering of a natural number. -/
def natToDigits (n : Nat) : List Char := natToDigitsAux (n + 1) n

theorem natToDigitsAux_succ (fuel n : Nat) :
    natToDigitsAux (fuel + 1) n =
      if n < 10 then [digitChar10 n]
      else natToDigitsAux fuel (n / 10) ++ [digitChar10 (n % 10)] := rfl

theorem natToDigitsAux_fuel (fuel₁ fuel₂ n : Nat) (h₁ : n < fuel₁) (h₂ : n < fuel₂) :
    natToDigitsAux fuel₁ n = natToDigitsAux fuel₂ n := by
  induction fuel₁ generalizing fuel₂ n with
  | zero => omega
  | succ f ih =>
    cases fuel₂ with
    | zero => omega
    | succ f₂ =>
      rw [natToDigitsAux_succ, natToDigitsAux_succ]
      by_cases h : n < 10
      · simp [h]
      · simp only [h, if_false]
        have hd : n / 10 < n := Nat.div_lt_self (by omega) (by omega)
        rw [ih f₂ (n / 10) (by omega) (by omega)]

theorem natToDigits_step (n : Nat) (h : ¬ n < 10) :
    natToDigits n = natToDigits (n / 10) ++ [digitChar10 (n % 10)] := by
  have hd : n / 10 < n := Nat.div_lt_self (by omega) (by omega)
  show natToDigitsAux (n + 1) n = natToDigitsAux (n / 10 + 1) (n / 10) ++ [digitChar10 (n % 10)]
  rw [natToDigitsAux_succ, if_neg h,
    natToDigitsAux_fuel n (n / 10 + 1) (n / 10) hd (Nat.lt_succ_self _)]

theorem natToDigits_small (n : Nat) (h : n < 10) : natToDigits n = [digitChar10 n] := by
  simp [natToDigits, natToDigitsAux, h]

theorem digitChar10_toNat (n : Nat) (h : n < 10) : (digitChar10 n).toNat = 48 + n := by
  interval_cases n <;> decide

theorem isDigitCh_digitChar10 (n : Nat) (h : n < 10) : isDigitCh (digitChar10 n) = true := by
  interval_cases n <;> decide

theorem natToDigits_ne_nil (n : Nat) : natToDigits n ≠ [] := by
  by_cases h : n < 10
  · rw [natToDigits_small n h]; simp
  · rw [natToDigits_step n h]; simp

theorem natToDigits_all_digits (n : Nat) : ∀ c ∈ natToDigits n, isDigitCh c = true := by
  induction n using Nat.strong_induction_on with
  | _ n ih =>
    by_cases h : n < 10
    · rw [natToDigits_small n h]
      intro c hc
      simp at hc
      subst hc
      exact isDigitCh_digitChar10 n h
    · rw [natToDigits_step n h]
      intro c hc
      rcases List.mem_append.mp hc with h1 | h2
      · exact ih (n / 10) (Nat.div_lt_self (by omega) (by omega)) c h1
      · simp at h2
        subst h2
        exact isDigitCh_digitChar10 (n % 10) (Nat.mod_lt _ (by omega))

theorem digitsToNat_append_singleton (s : List Char) (c : Char) :
    digitsToNat (s ++ [c]) = digitsToNat s * 10 + (c.toNat - 48) := by
  simp [digitsToNat, List.foldl_append]

/-- Rendering then parsing a natural number is the identity. -/
theorem digitsToNat_natToDigits (n : Nat) : digitsToNat (natToDigits n) = n := by
  induction n using Nat.strong_induction_on with
  | _ n ih =>
    by_cases h : n < 10
    · rw [natToDigits_small n h]
      simp [digitsToNat, digitChar10_toNat n h]
    · rw [natToDigits_step n h, digitsToNat_append_singleton,
        ih (n / 10) (Nat.div_lt_self (by omega) (by omega)),
        digitChar10_toNat (n % 10) (Nat.mod_lt _ (by omega))]
      omega

/-! ### List scanning primitives shared by the embeddings -/

/-- Boolean prefix test on character lists. -/
def startsWithL : List Char → List Char → Bool
  | [], _ => true
  | _ :: _, [] => false
  | p :: ps, c :: cs => p = c && startsWithL ps cs

/-- Strip an exact literal from the front of a list, `none` on mismatch. -/
def dropPre : List Char → List Char → Option (List Char)
  | [], s => some s
  | _ :: _, [] => none
  | p :: ps, c :: cs => if p = c then dropPre ps cs else none

/-- Python's `needle in hay` substring test. -/
def occursIn (n : List Char) : List Char → Bool
  | [] => n.isEmpty
  | c :: t => startsWithL n (c :: t) || occursIn n t

/-- Index of the leftmost occurrence of `n`, if any. -/
def findAux (n : List Char) : List Char → Option Nat
  | [] => if n.isEmpty then some 0 else none
  | c :: t =>
    if startsWithL n (c :: t) then some 0
    else (findAux n t).map (· + 1)

/-- Python's `hay.find(n, start)`: `-1` when absent, negative `start` counts
from the end (clamped at 0), `start` beyond the length yields `-1`. -/
def pyFindI (n hay : List Char) (start : Int) : Int :=
  let s : Nat := (if start < 0 then (hay.length : Int) + start else start).toNat
  if hay.length < s then -1
  else
    match findAux n (hay.drop s) with
    | some j => ((s + j : Nat) : Int)
    | none => -1

theorem startsWithL_append_self (n r : List Char) : startsWithL n (n ++ r) = true := by
  induction n with
  | nil => rfl
  | cons c t ih => simp [startsWithL, ih]

theorem startsWithL_iff (n s : List Char) :
    startsWithL n s = true ↔ ∃ r, s = n ++ r := by
  induction n generalizing s with
  | nil => simp [startsWithL]
  | cons p ps ih =>
    cases s with
    | nil => simp [startsWithL]
    | cons c cs =>
      simp only [startsWithL, Bool.and_eq_true, decide_eq_true_eq, ih]
      constructor
      · rintro ⟨rfl, r, rfl⟩; exact ⟨r, rfl⟩
      · rintro ⟨r, h⟩
        cases h
        exact ⟨rfl, r, rfl⟩

theorem dropPre_append_self (p r : List Char) : dropPre p (p ++ r) = some r := by
  induction p with
  | nil => rfl
  | cons c t ih => simp [dropPre, ih]

theorem dropPre_eq_some (p s r : List Char) (h : dropPre p s = some r) : s = p ++ r := by
  induction p generalizing s with
  | nil => simpa [dropPre] using h
  | cons c t ih =>
    cases s with
    | nil => simp [dropPre] at h
    | cons d ds =>
      simp only [dropPre] at h
      split at h
      · next heq => simp [heq, ih ds h]
      · exact absurd h (by simp)

/-- A mismatch between a needle and the front of a list that happens inside
the list, hence independently of whatever is appended after it. -/
def mismatchWithin : List Char → List Char → Bool
  | [], _ => false
  | _ :: _, [] => false
  | a :: n, b :: v => !(a = b : Bool) || mismatchWithin n v

theorem startsWithL_eq_false_of_mismatch (n v r : List Char)
    (h : mismatchWithin n v = true) : startsWithL n (v ++ r) = false := by
  induction n generalizing v with
  | nil => cases v <;> simp [mismatchWithin] at h
  | cons a as ih =>
    cases v with
    | nil => simp [mismatchWithin] at h
    | cons b bs =>
      by_cases hab : a = b
      · subst hab
        have h' : mismatchWithin as bs = true := by simpa [mismatchWithin] using h
        simp [startsWithL, ih bs h']
      · simp [startsWithL, hab]

theorem dropPre_eq_none_of_mismatch (n v r : List Char)
    (h : mismatchWithin n v = true) : dropPre n (v ++ r) = none := by
  induction n generalizing v with
  | nil => cases v <;> simp [mismatchWithin] at h
  | cons a as ih =>
    cases v with
    | nil => simp [mismatchWithin] at h
    | cons b bs =>
      by_cases hab : a = b
      · subst hab
        have h' : mismatchWithin as bs = true := by simpa [mismatchWithin] using h
        simp [dropPre, ih bs h']
      · simp [dropPre, hab]

theorem startsWithL_eq_false_of_head_ne (n' : List Char) (d c : Char) (t : List Char)
    (h : c ≠ d) : startsWithL (d :: n') (c :: t) = false := by
  have hd : ¬ (d = c) := fun hh => h hh.symm
  simp [startsWithL, hd]

/-- Scanning past a block none of whose characters can start the needle. -/
theorem findAux_skip_head (d : Char) (n' A R : List Char) (hA : ∀ c ∈ A, c ≠ d) :
    findAux (d :: n') (A ++ R) = (findAux (d :: n') R).map (· + A.length) := by
  induction A with
  | nil => cases h : findAux (d :: n') R <;> simp [h]
  | cons c t ih =>
    have hc : c ≠ d := hA c (by simp)
    have ih' := ih (fun x hx => hA x (List.mem_cons_of_mem _ hx))
    simp only [List.cons_append, findAux, startsWithL_eq_false_of_head_ne n' d c _ hc,
      Bool.false_eq_true, if_false, List.append_eq]
    rw [ih']
    cases h : findAux (d :: n') R with
    | none => rfl
    | some v =>
      simp only [Option.map_some', List.length_cons, Option.some.injEq]
      omega

/-- Scanning past a block each of whose nonempty suffixes mismatches the
needle internally. -/
theorem findAux_skip_mm (n A R : List Char)
    (hA : ∀ v ∈ A.tails, v = [] ∨ mismatchWithin n v = true) :
    findAux n (A ++ R) = (findAux n R).map (· + A.length) := by
  induction A with
  | nil => cases h : findAux n R <;> simp [h]
  | cons c t ih =>
    have hmm : mismatchWithin n (c :: t) = true := by
      rcases hA (c :: t) (by simp [List.tails_cons]) with h | h
      · exact absurd h (by simp)
      · exact h
    have hs : startsWithL n ((c :: t) ++ R) = false :=
      startsWithL_eq_false_of_mismatch n (c :: t) R hmm
    have ht : ∀ v ∈ t.tails, v = [] ∨ mismatchWithin n v = true := by
      intro v hv
      exact hA v (by simp [List.tails_cons, hv])
    simp only [List.cons_append] at hs ⊢
    simp only [findAux, hs, Bool.false_eq_true, if_false, List.append_eq]
    rw [ih ht]
    cases h : findAux n R with
    | none => rfl
    | some v =>
      simp only [Option.map_some', List.length_cons, Option.some.injEq]
      omega

theorem findAux_self (n R : List Char) (hn : n ≠ []) :
    findAux n (n ++ R) = some 0 := by
  cases n with
  | nil => exact absurd rfl hn
  | cons c t =>
    have hs := startsWithL_append_self (c :: t) R
    simp only [List.cons_append] at hs
    simp [findAux, hs]

theorem occursIn_of_startsWithL (n s : List Char) (h : startsWithL n s = true) :
    occursIn n s = true := by
  cases s with
  | nil =>
    cases n with
    | nil => rfl
    | cons a b => simp [startsWithL] at h
  | cons c t => simp [occursIn, h]

theorem occursIn_append_right (n A s : List Char) (h : occursIn n s = true) :
    occursIn n (A ++ s) = true := by
  induction A with
  | nil => exact h
  | cons c t ih =>
    simp only [List.cons_append, occursIn, Bool.or_eq_true]
    right
    exact ih

/-- A substring occurrence at an explicit offset. -/
theorem occursIn_mid (n A B : List Char) : occursIn n (A ++ n ++ B) = true := by
  rw [List.append_assoc]
  exact occursIn_append_right n A _
    (occursIn_of_startsWithL n (n ++ B) (startsWithL_append_self n B))

theorem takeWhile_append_all (p : Char → Bool) (A B : List Char)
    (hA : ∀ c ∈ A, p c = true) (hB : ∀ b, B.head? = some b → p b = false) :
    (A ++ B).takeWhile p = A ∧ (A ++ B).dropWhile p = B := by
  induction A with
  | nil =>
    cases B with
    | nil => simp
    | cons b bs =>
      have hb := hB b rfl
      simp [List.takeWhile, List.dropWhile, hb]
  | cons c t ih =>
    have hc : p c = true := hA c (by simp)
    have iht := ih (fun x hx => hA x (List.mem_cons_of_mem _ hx))
    simp [List.takeWhile, List.dropWhile, hc, iht.1, iht.2]

/-! ### Version store: `get_current_version` and `bump_version` -/

/-- Key of the major-version declaration. -/
def kMajor : List Char := sL "VERSION_MAJOR"

/-- Key of the minor-version declaration. -/
def kMinor : List Char := sL "VERSION_MINOR"

/-- Key of the patch-version declaration. -/
def kPatch : List Char := sL "VERSION_PATCH"

/-- Maximal-munch matcher for the anchored regex `#define\s+KEY\s+(\d+)` at
the head of `s`.  Each greedy class (`\s+`, `\d+`) is followed in the
pattern by a character it cannot match, so maximal munch coincides with the
backtracking semantics of `re`.  Returns the digit group and the remainder
after the match. -/
def matchDefineAt (key : List Char) (s : List Char) : Option (List Char × List Char) :=
  match dropPre (sL "#define") s with
  | none => none
  | some s1 =>
    let w1 := s1.takeWhile isWSCh
    if w1.isEmpty then none
    else
      match dropPre key (s1.dropWhile isWSCh) with
      | none => none
      | some s2 =>
        let w2 := s2.takeWhile isWSCh
        if w2.isEmpty then none
        else
          let s3 := s2.dropWhile isWSCh
          let ds := s3.takeWhile isDigitCh
          if ds.isEmpty then none else some (ds, s3.dropWhile isDigitCh)

/-- `re.search` for the define pattern: leftmost match, returning the digit
group. -/
def searchDefine (key : List Char) : List Char → Option (List Char)
  | [] => none
  | c :: t =>
    match matchDefineAt key (c :: t) with
    | some (ds, _) => some ds
    | none => searchDefine key t

/-- Replacement text `#define KEY {n}` used by `bump_version`'s `re.sub`. -/
def repDecl (key nd : List Char) : List Char := sL "#define " ++ key ++ sL " " ++ nd

/-- Fuel-driven `re.sub` for the define pattern: leftmost, non-overlapping,
every match replaced by `repDecl key nd`. -/
def subDefineAux (key nd : List Char) : Nat → List Char → List Char
  | 0, s => s
  | _ + 1, [] => []
  | fuel + 1, c :: t =>
    match matchDefineAt key (c :: t) with
    | some (_, rest) => repDecl key nd ++ subDefineAux key nd fuel rest
    | none => c :: subDefineAux key nd fuel t

/-- `re.sub(r'#define\s+KEY\s+\d+', f'#define KEY {n}', s)`. -/
def subDefine (key nd s : List Char) : List Char := subDefineAux key nd s.length s

/-- Embedding of `get_current_version` (minus the file-existence check,
handled by `read_version`): three regex searches, process exit when any is
missing, otherwise `int()` of the three digit groups. -/
def get_current_version (h : List Char) : Option (Nat × Nat × Nat) :=
  match searchDefine kMajor h, searchDefine kMinor h, searchDefine kPatch h with
  | some a, some b, some c => some (digitsToNat a, digitsToNat b, digitsToNat c)
  | _, _, _ => none

/-- `get_current_version` at the file level: `none` is the `sys.exit(1)` on a
missing `version.h`. -/
def read_version : Option (List Char) → Option (Nat × Nat × Nat)
  | none => none
  | some h => get_current_version h

/-- The `if part == ...` chain of `bump_version`. -/
def bumpPart (part : List Char) (ma mi pa : Nat) : Option (Nat × Nat × Nat) :=
  if part = sL "major" then some (ma + 1, 0, 0)
  else if part = sL "minor" then some (ma, mi + 1, 0)
  else if part = sL "patch" then some (ma, mi, pa + 1)
  else none

/-- The `f"{major}.{minor}.{patch}"` version string. -/
def verStr (ma mi pa : Nat) : List Char :=
  natToDigits ma ++ '.' :: natToDigits mi ++ '.' :: natToDigits pa

/-- Embedding of `bump_version`: read the current triple, bump the requested
part, rewrite all three defines, return the new header content and the
version string the Python function returns.  `none` covers the two
`sys.exit(1)` paths (unparsable header, invalid part). -/
def bump_version (part h : List Char) : Option (List Char × List Char) :=
  match get_current_version h with
  | none => none
  | some (ma, mi, pa) =>
    match bumpPart part ma mi pa with
    | none => none
    | some (a, b, c) =>
      let h1 := subDefine kMajor (natToDigits a) h
      let h2 := subDefine kMinor (natToDigits b) h1
      let h3 := subDefine kPatch (natToDigits c) h2
      some (h3, verStr a b c)

theorem bumpPart_major (ma mi pa : Nat) :
    bumpPart (sL "major") ma mi pa = some (ma + 1, 0, 0) := by
  simp [bumpPart]

theorem bumpPart_minor (ma mi pa : Nat) :
    bumpPart (sL "minor") ma mi pa = some (ma, mi + 1, 0) := by
  unfold bumpPart
  rw [if_neg (by decide : ¬ sL "minor" = sL "major"), if_pos rfl]

theorem bumpPart_patch (ma mi pa : Nat) :
    bumpPart (sL "patch") ma mi pa = some (ma, mi, pa + 1) := by
  unfold bumpPart
  rw [if_neg (by decide : ¬ sL "patch" = sL "major"),
    if_neg (by decide : ¬ sL "patch" = sL "minor"), if_pos rfl]

/-- C1: for every version triple (major, minor, patch) read from the version
header, `bump("patch")` produces (major, minor, patch+1), `bump("minor")`
produces (major, minor+1, 0), `bump("major")` produces (major+1, 0, 0), and
the bumped triple rendered as `"major.minor.patch"` is the string the
operation returns. -/
theorem claimC1_bump_arithmetic (content : List Char) (ma mi pa : Nat)
    (h : get_current_version content = some (ma, mi, pa)) :
    (bump_version (sL "patch") content).map Prod.snd = some (verStr ma mi (pa + 1)) ∧
    (bump_version (sL "minor") content).map Prod.snd = some (verStr ma (mi + 1) 0) ∧
    (bump_version (sL "major") content).map Prod.snd = some (verStr (ma + 1) 0 0) := by
  refine ⟨?_, ?_, ?_⟩ <;>
    simp only [bump_version, h, bumpPart_patch, bumpPart_minor, bumpPart_major,
      Option.map_some']

/-- Concrete version header used by the witnesses below. -/
def hdrW : List Char :=
  sL "#define VERSION_MAJOR 1\n#define VERSION_MINOR 4\n#define VERSION_PATCH 9\n"

/-- Witness for C1 at a concrete header declaring version 1.4.9. -/
theorem claimC1_witness :
    (bump_version (sL "patch") hdrW).map Prod.snd = some (verStr 1 4 10) ∧
    (bump_version (sL "minor") hdrW).map Prod.snd = some (verStr 1 5 0) ∧
    (bump_version (sL "major") hdrW).map Prod.snd = some (verStr 2 0 0) :=
  claimC1_bump_arithmetic hdrW 1 4 9 (by decide)

/-- C7: the version read fails (process exit instead of a value) exactly when
the header file is missing or any of the three declaration regexes fails to
match; when all three match it returns their integer values. -/
theorem claimC7_read_version_errors :
    read_version none = none ∧
    (∀ c, read_version (some c) = none ↔
      (searchDefine kMajor c = none ∨ searchDefine kMinor c = none ∨
        searchDefine kPatch c = none)) ∧
    (∀ c a b d, searchDefine kMajor c = some a → searchDefine kMinor c = some b →
      searchDefine kPatch c = some d →
      read_version (some c) = some (digitsToNat a, digitsToNat b, digitsToNat d)) := by
  refine ⟨rfl, ?_, ?_⟩
  · intro c
    cases hM : searchDefine kMajor c <;> cases hN : searchDefine kMinor c <;>
      cases hP : searchDefine kPatch c <;>
      simp [read_version, get_current_version, hM, hN, hP]
  · intro c a b d hM hN hP
    simp [read_version, get_current_version, hM, hN, hP]

/-- Witness for C7 at a concrete header declaring version 1.4.9. -/
theorem claimC7_witness : read_version (some hdrW) = some (1, 4, 9) :=
  claimC7_read_version_errors.2.2 hdrW (sL "1") (sL "4") (sL "9")
    (by decide) (by decide) (by decide)

/-! ### Character class facts -/

theorem isWSCh_cases (c : Char) (h : isWSCh c = true) :
    c = ' ' ∨ c = '\t' ∨ c = '\n' ∨ c = '\x0b' ∨ c = '\x0c' ∨ c = '\r' := by
  simpa [isWSCh, or_assoc] using h

theorem ne_hash_of_ws (c : Char) (h : isWSCh c = true) : c ≠ '#' := by
  rcases isWSCh_cases c h with h | h | h | h | h | h <;> subst h <;> decide

theorem ne_hash_of_digit (c : Char) (h : isDigitCh c = true) : c ≠ '#' := by
  intro hc
  subst hc
  revert h
  decide

theorem not_ws_of_digit (c : Char) (h : isDigitCh c = true) : isWSCh c = false := by
  cases hw : isWSCh c with
  | false => rfl
  | true =>
    rcases isWSCh_cases c hw with h' | h' | h' | h' | h' | h' <;> subst h' <;> revert h <;> decide

theorem head?_append_ne_nil (A B : List Char) (h : A ≠ []) : (A ++ B).head? = A.head? := by
  cases A with
  | nil => exact absurd rfl h
  | cons c t => rfl

theorem isEmpty_eq_false_of_ne_nil (A : List Char) (h : A ≠ []) : A.isEmpty = false := by
  cases A with
  | nil => exact absurd rfl h
  | cons c t => rfl

/-! ### Matching, searching and substituting define declarations -/

/-- A version declaration with explicit whitespace and digit runs: the shape
of any match of `#define\s+KEY\s+\d+`. -/
def declOf (key w1 w2 ds : List Char) : List Char :=
  sL "#define" ++ w1 ++ key ++ w2 ++ ds

theorem matchDefineAt_ne_hash (key : List Char) (c : Char) (t : List Char) (h : c ≠ '#') :
    matchDefineAt key (c :: t) = none := by
  have hd : dropPre (sL "#define") (c :: t) = none := by
    have : ¬ ('#' = c) := fun hh => h hh.symm
    simp [sL, dropPre, this]
  simp [matchDefineAt, hd]

theorem matchDefineAt_decl (key w1 w2 ds R : List Char)
    (hw1 : w1 ≠ []) (hw1a : ∀ c ∈ w1, isWSCh c = true)
    (hw2 : w2 ≠ []) (hw2a : ∀ c ∈ w2, isWSCh c = true)
    (hds : ds ≠ []) (hdsa : ∀ c ∈ ds, isDigitCh c = true)
    (hkey : key ≠ []) (hkh : ∀ b, key.head? = some b → isWSCh b = false)
    (hR : ∀ b, R.head? = some b → isDigitCh b = false) :
    matchDefineAt key (declOf key w1 w2 ds ++ R) = some (ds, R) := by
  have hshape : declOf key w1 w2 ds ++ R =
      sL "#define" ++ (w1 ++ (key ++ (w2 ++ (ds ++ R)))) := by
    simp [declOf, List.append_assoc]
  have h1 : dropPre (sL "#define") (declOf key w1 w2 ds ++ R) =
      some (w1 ++ (key ++ (w2 ++ (ds ++ R)))) := by
    rw [hshape]; exact dropPre_append_self _ _
  have htw1 := takeWhile_append_all isWSCh w1 (key ++ (w2 ++ (ds ++ R))) hw1a
    (by
      intro b hb
      rw [head?_append_ne_nil key _ hkey] at hb
      exact hkh b hb)
  have h2 : dropPre key (key ++ (w2 ++ (ds ++ R))) = some (w2 ++ (ds ++ R)) :=
    dropPre_append_self _ _
  have htw2 := takeWhile_append_all isWSCh w2 (ds ++ R) hw2a
    (by
      intro b hb
      rw [head?_append_ne_nil ds _ hds] at hb
      have hmem : b ∈ ds := by
        cases ds with
        | nil => simp at hb
        | cons d0 dt =>
          simp only [List.head?, Option.some.injEq] at hb
          subst hb
          simp
      exact not_ws_of_digit b (hdsa b hmem))
  have htds := takeWhile_append_all isDigitCh ds R hdsa hR
  simp only [matchDefineAt, h1, htw1.1, htw1.2, h2, htw2.1, htw2.2, htds.1, htds.2,
    isEmpty_eq_false_of_ne_nil w1 hw1, isEmpty_eq_false_of_ne_nil w2 hw2,
    isEmpty_eq_false_of_ne_nil ds hds, Bool.false_eq_true, if_false]

theorem matchDefineAt_foreign (key key' w1 w2 ds R : List Char)
    (hmm : mismatchWithin key key' = true)
    (hw1a : ∀ c ∈ w1, isWSCh c = true)
    (hkh : ∀ b, key'.head? = some b → isWSCh b = false) (hkey' : key' ≠ []) :
    matchDefineAt key (declOf key' w1 w2 ds ++ R) = none := by
  have hshape : declOf key' w1 w2 ds ++ R =
      sL "#define" ++ (w1 ++ (key' ++ (w2 ++ (ds ++ R)))) := by
    simp [declOf, List.append_assoc]
  have h1 : dropPre (sL "#define") (declOf key' w1 w2 ds ++ R) =
      some (w1 ++ (key' ++ (w2 ++ (ds ++ R)))) := by
    rw [hshape]; exact dropPre_append_self _ _
  have htw1 := takeWhile_append_all isWSCh w1 (key' ++ (w2 ++ (ds ++ R))) hw1a
    (by
      intro b hb
      rw [head?_append_ne_nil key' _ hkey'] at hb
      exact hkh b hb)
  have h2 : dropPre key (key' ++ (w2 ++ (ds ++ R))) = none :=
    dropPre_eq_none_of_mismatch key key' _ hmm
  by_cases hw1 : w1 = []
  · subst hw1
    simp only [matchDefineAt, h1, List.nil_append]
    have : (key' ++ (w2 ++ (ds ++ R))).takeWhile isWSCh = [] ∧
        (key' ++ (w2 ++ (ds ++ R))).dropWhile isWSCh = key' ++ (w2 ++ (ds ++ R)) := by
      have := takeWhile_append_all isWSCh [] (key' ++ (w2 ++ (ds ++ R)))
        (by intro c hc; cases hc)
        (by
          intro b hb
          rw [head?_append_ne_nil key' _ hkey'] at hb
          exact hkh b hb)
      simpa using this
    simp [this.1]
  · simp only [matchDefineAt, h1, htw1.1, htw1.2, h2,
      isEmpty_eq_false_of_ne_nil w1 hw1, Bool.false_eq_true, if_false]

theorem searchDefine_cons (key : List Char) (c : Char) (t : List Char) :
    searchDefine key (c :: t) =
      match matchDefineAt key (c :: t) with
      | some (ds, _) => some ds
      | none => searchDefine key t := rfl

theorem searchDefine_skip_noHash (key A R : List Char) (hA : ∀ c ∈ A, c ≠ '#') :
    searchDefine key (A ++ R) = searchDefine key R := by
  induction A with
  | nil => rfl
  | cons c t ih =>
    have hm := matchDefineAt_ne_hash key c (t ++ R) (hA c (by simp))
    rw [List.cons_append, searchDefine_cons, hm]
    exact ih (fun x hx => hA x (List.mem_cons_of_mem _ hx))

/-- Characters of a declaration other than its leading `#`. -/
theorem declOf_tail_noHash (key w1 w2 ds : List Char)
    (hw1a : ∀ c ∈ w1, isWSCh c = true) (hw2a : ∀ c ∈ w2, isWSCh c = true)
    (hdsa : ∀ c ∈ ds, isDigitCh c = true) (hkeyh : ∀ c ∈ key, c ≠ '#') :
    ∀ c ∈ sL "define" ++ w1 ++ key ++ w2 ++ ds, c ≠ '#' := by
  intro c hc
  simp only [List.append_assoc, List.mem_append] at hc
  rcases hc with hc | hc | hc | hc | hc
  · exact (by decide : ∀ x ∈ sL "define", x ≠ '#') c hc
  · exact ne_hash_of_ws c (hw1a c hc)
  · exact hkeyh c hc
  · exact ne_hash_of_ws c (hw2a c hc)
  · exact ne_hash_of_digit c (hdsa c hc)

theorem declOf_cons (key w1 w2 ds : List Char) :
    declOf key w1 w2 ds = '#' :: (sL "define" ++ w1 ++ key ++ w2 ++ ds) := by
  simp [declOf, sL]

theorem searchDefine_at_decl (key w1 w2 ds R : List Char)
    (hw1 : w1 ≠ []) (hw1a : ∀ c ∈ w1, isWSCh c = true)
    (hw2 : w2 ≠ []) (hw2a : ∀ c ∈ w2, isWSCh c = true)
    (hds : ds ≠ []) (hdsa : ∀ c ∈ ds, isDigitCh c = true)
    (hkey : key ≠ []) (hkh : ∀ b, key.head? = some b → isWSCh b = false)
    (hR : ∀ b, R.head? = some b → isDigitCh b = false) :
    searchDefine key (declOf key w1 w2 ds ++ R) = some ds := by
  have hm := matchDefineAt_decl key w1 w2 ds R hw1 hw1a hw2 hw2a hds hdsa hkey hkh hR
  rw [declOf_cons] at hm ⊢
  rw [List.cons_append, searchDefine_cons]
  simp only [List.cons_append, List.append_assoc] at hm ⊢
  rw [hm]

theorem searchDefine_skip_foreign (key key' w1 w2 ds R : List Char)
    (hmm : mismatchWithin key key' = true)
    (hw1a : ∀ c ∈ w1, isWSCh c = true) (hw2a : ∀ c ∈ w2, isWSCh c = true)
    (hdsa : ∀ c ∈ ds, isDigitCh c = true)
    (hkh : ∀ b, key'.head? = some b → isWSCh b = false) (hkey' : key' ≠ [])
    (hkeyh : ∀ c ∈ key', c ≠ '#') :
    searchDefine key (declOf key' w1 w2 ds ++ R) = searchDefine key R := by
  have hm := matchDefineAt_foreign key key' w1 w2 ds R hmm hw1a hkh hkey'
  rw [declOf_cons] at hm ⊢
  rw [List.cons_append, searchDefine_cons]
  simp only [List.cons_append, List.append_assoc] at hm ⊢
  rw [hm]
  have hskip := searchDefine_skip_noHash key (sL "define" ++ w1 ++ key' ++ w2 ++ ds) R
    (declOf_tail_noHash key' w1 w2 ds hw1a hw2a hdsa hkeyh)
  simpa [List.append_assoc] using hskip

theorem dropWhile_length_le (p : Char → Bool) (s : List Char) :
    (s.dropWhile p).length ≤ s.length := by
  induction s with
  | nil => simp
  | cons c t ih =>
    by_cases h : p c
    · rw [List.dropWhile_cons_of_pos h]
      exact Nat.le_succ_of_le ih
    · rw [List.dropWhile_cons_of_neg h]

theorem matchDefineAt_length (key s ds rest : List Char)
    (h : matchDefineAt key s = some (ds, rest)) : rest.length < s.length := by
  simp only [matchDefineAt] at h
  cases h7 : dropPre (sL "#define") s with
  | none => simp [h7] at h
  | some s1 =>
    simp only [h7] at h
    by_cases he1 : (s1.takeWhile isWSCh).isEmpty
    · simp [he1] at h
    · simp only [he1, Bool.false_eq_true, if_false] at h
      cases h8 : dropPre key (s1.dropWhile isWSCh) with
      | none => simp [h8] at h
      | some s2 =>
        simp only [h8] at h
        by_cases he2 : (s2.takeWhile isWSCh).isEmpty
        · simp [he2] at h
        · simp only [he2, Bool.false_eq_true, if_false] at h
          by_cases he3 : (((s2.dropWhile isWSCh)).takeWhile isDigitCh).isEmpty
          · simp [he3] at h
          · simp only [he3, Bool.false_eq_true, if_false, Option.some.injEq,
              Prod.mk.injEq] at h
            have hrest : rest = (s2.dropWhile isWSCh).dropWhile isDigitCh := h.2.symm
            have e1 : s = sL "#define" ++ s1 := dropPre_eq_some _ _ _ h7
            have e2 : s1.dropWhile isWSCh = key ++ s2 := dropPre_eq_some _ _ _ h8
            have l1 : rest.length ≤ (s2.dropWhile isWSCh).length := by
              rw [hrest]; exact dropWhile_length_le _ _
            have l2 : (s2.dropWhile isWSCh).length ≤ s2.length := dropWhile_length_le _ _
            have l3 : s2.length ≤ (s1.dropWhile isWSCh).length := by
              rw [e2]; simp
            have l4 : (s1.dropWhile isWSCh).length ≤ s1.length := dropWhile_length_le _ _
            have l5 : s.length = 7 + s1.length := by
              rw [e1]
              simp [sL]
              omega
            omega

theorem subDefineAux_fuel (key nd : List Char) (f₁ f₂ : Nat) (s : List Char)
    (h₁ : s.length ≤ f₁) (h₂ : s.length ≤ f₂) :
    subDefineAux key nd f₁ s = subDefineAux key nd f₂ s := by
  induction f₁ generalizing f₂ s with
  | zero =>
    have : s = [] := by
      cases s with
      | nil => rfl
      | cons c t => simp at h₁
    subst this
    cases f₂ <;> rfl
  | succ g ih =>
    cases s with
    | nil => cases f₂ <;> rfl
    | cons c t =>
      cases f₂ with
      | zero => simp at h₂
      | succ g₂ =>
        simp only [subDefineAux]
        cases hm : matchDefineAt key (c :: t) with
        | none =>
          simp only [List.length_cons] at h₁ h₂
          show c :: subDefineAux key nd g t = c :: subDefineAux key nd g₂ t
          rw [ih g₂ t (by omega) (by omega)]
        | some pr =>
          obtain ⟨ds, rest⟩ := pr
          have hl := matchDefineAt_length key (c :: t) ds rest hm
          simp only [List.length_cons] at hl h₁ h₂
          show repDecl key nd ++ subDefineAux key nd g rest =
            repDecl key nd ++ subDefineAux key nd g₂ rest
          rw [ih g₂ rest (by omega) (by omega)]

theorem subDefine_nil (key nd : List Char) : subDefine key nd [] = [] := rfl

theorem subDefine_cons_none (key nd : List Char) (c : Char) (t : List Char)
    (h : matchDefineAt key (c :: t) = none) :
    subDefine key nd (c :: t) = c :: subDefine key nd t := by
  show subDefineAux key nd (t.length + 1) (c :: t) = c :: subDefineAux key nd t.length t
  simp only [subDefineAux, h]

theorem subDefine_cons_match (key nd : List Char) (c : Char) (t ds rest : List Char)
    (h : matchDefineAt key (c :: t) = some (ds, rest)) :
    subDefine key nd (c :: t) = repDecl key nd ++ subDefine key nd rest := by
  have hl := matchDefineAt_length key (c :: t) ds rest h
  simp only [List.length_cons] at hl
  show subDefineAux key nd (t.length + 1) (c :: t) = _
  simp only [subDefineAux, h]
  rw [subDefineAux_fuel key nd t.length rest.length rest (by omega) (le_refl _)]
  rfl

theorem subDefine_skip_noHash (key nd A R : List Char) (hA : ∀ c ∈ A, c ≠ '#') :
    subDefine key nd (A ++ R) = A ++ subDefine key nd R := by
  induction A with
  | nil => rfl
  | cons c t ih =>
    have hm := matchDefineAt_ne_hash key c (t ++ R) (hA c (by simp))
    rw [List.cons_append, subDefine_cons_none key nd c (t ++ R) hm,
      ih (fun x hx => hA x (List.mem_cons_of_mem _ hx))]
    rfl

theorem subDefine_eq_self_noHash (key nd A : List Char) (hA : ∀ c ∈ A, c ≠ '#') :
    subDefine key nd A = A := by
  have h0 := subDefine_skip_noHash key nd A [] hA
  rw [subDefine_nil] at h0
  simpa using h0

theorem subDefine_at_decl (key nd w1 w2 ds R : List Char)
    (hw1 : w1 ≠ []) (hw1a : ∀ c ∈ w1, isWSCh c = true)
    (hw2 : w2 ≠ []) (hw2a : ∀ c ∈ w2, isWSCh c = true)
    (hds : ds ≠ []) (hdsa : ∀ c ∈ ds, isDigitCh c = true)
    (hkey : key ≠ []) (hkh : ∀ b, key.head? = some b → isWSCh b = false)
    (hR : ∀ b, R.head? = some b → isDigitCh b = false) :
    subDefine key nd (declOf key w1 w2 ds ++ R) = repDecl key nd ++ subDefine key nd R := by
  have hm := matchDefineAt_decl key w1 w2 ds R hw1 hw1a hw2 hw2a hds hdsa hkey hkh hR
  rw [declOf_cons] at hm ⊢
  rw [List.cons_append] at hm ⊢
  exact subDefine_cons_match key nd '#' _ ds R hm

theorem subDefine_skip_foreign (key nd key' w1 w2 ds R : List Char)
    (hmm : mismatchWithin key key' = true)
    (hw1a : ∀ c ∈ w1, isWSCh c = true) (hw2a : ∀ c ∈ w2, isWSCh c = true)
    (hdsa : ∀ c ∈ ds, isDigitCh c = true)
    (hkh : ∀ b, key'.head? = some b → isWSCh b = false) (hkey' : key' ≠ [])
    (hkeyh : ∀ c ∈ key', c ≠ '#') :
    subDefine key nd (declOf key' w1 w2 ds ++ R) = declOf key' w1 w2 ds ++ subDefine key nd R := by
  have hm := matchDefineAt_foreign key key' w1 w2 ds R hmm hw1a hkh hkey'
  rw [declOf_cons] at hm ⊢
  rw [List.cons_append] at hm ⊢
  have hskip := subDefine_skip_noHash key nd (sL "define" ++ w1 ++ key' ++ w2 ++ ds) R
    (declOf_tail_noHash key' w1 w2 ds hw1a hw2a hdsa hkeyh)
  rw [subDefine_cons_none key nd '#' _ hm, hskip]
  rfl

theorem head_declOf_append_not_digit (key w1 w2 ds X : List Char) :
    ∀ b, (declOf key w1 w2 ds ++ X).head? = some b → isDigitCh b = false := by
  intro b hb
  rw [declOf_cons, List.cons_append] at hb
  simp only [List.head?, Option.some.injEq] at hb
  subst hb
  decide

theorem head_append_not_digit (B X : List Char)
    (hB : ∀ b, B.head? = some b → isDigitCh b = false)
    (hX : ∀ b, X.head? = some b → isDigitCh b = false) :
    ∀ b, (B ++ X).head? = some b → isDigitCh b = false := by
  intro b hb
  cases B with
  | nil => exact hX b hb
  | cons c t =>
    rw [head?_append_ne_nil _ _ (by simp)] at hb
    exact hB b hb

theorem key_head_not_ws_of (key : List Char) (d : Char) (hk : key.head? = some d)
    (hd : isWSCh d = false) : ∀ b, key.head? = some b → isWSCh b = false := by
  intro b hb
  rw [hk, Option.some.injEq] at hb
  subst hb
  exact hd

/-- C10: during a bump, the write-back substitutes every occurrence of the
header file matching a `#define\s+KEY\s+\d+` declaration pattern — not just
the first, so duplicate declarations of a component all receive the new
value — and every character outside the matched declaration substrings is
preserved byte-identically.  `key` ranges over well-formed keys, covering
the three calls with `VERSION_MAJOR`, `VERSION_MINOR`, `VERSION_PATCH`. -/
theorem claimC10_sub_replaces_all_occurrences
    (key nd A B C w1 w2 ds w1' w2' ds' : List Char)
    (hA : ∀ c ∈ A, c ≠ '#') (hB : ∀ c ∈ B, c ≠ '#') (hC : ∀ c ∈ C, c ≠ '#')
    (hw1 : w1 ≠ []) (hw1a : ∀ c ∈ w1, isWSCh c = true)
    (hw2 : w2 ≠ []) (hw2a : ∀ c ∈ w2, isWSCh c = true)
    (hds : ds ≠ []) (hdsa : ∀ c ∈ ds, isDigitCh c = true)
    (hw1' : w1' ≠ []) (hw1a' : ∀ c ∈ w1', isWSCh c = true)
    (hw2' : w2' ≠ []) (hw2a' : ∀ c ∈ w2', isWSCh c = true)
    (hds' : ds' ≠ []) (hdsa' : ∀ c ∈ ds', isDigitCh c = true)
    (hkey : key ≠ []) (hkh : ∀ b, key.head? = some b → isWSCh b = false)
    (hBh : ∀ b, B.head? = some b → isDigitCh b = false)
    (hCh : ∀ b, C.head? = some b → isDigitCh b = false) :
    subDefine key nd
        (A ++ declOf key w1 w2 ds ++ B ++ declOf key w1' w2' ds' ++ C) =
      A ++ repDecl key nd ++ B ++ repDecl key nd ++ C := by
  simp only [List.append_assoc]
  rw [subDefine_skip_noHash key nd A _ hA]
  rw [subDefine_at_decl key nd w1 w2 ds _ hw1 hw1a hw2 hw2a hds hdsa hkey hkh
    (head_append_not_digit B _ hBh (head_declOf_append_not_digit key w1' w2' ds' C))]
  rw [subDefine_skip_noHash key nd B _ hB]
  rw [subDefine_at_decl key nd w1' w2' ds' C hw1' hw1a' hw2' hw2a' hds' hdsa' hkey hkh hCh]
  rw [subDefine_eq_self_noHash key nd C hC]

/-- Witness for C10: a header with two `VERSION_MAJOR` declarations; both
are rewritten and all other characters survive byte-for-byte. -/
theorem claimC10_witness :
    subDefine kMajor (sL "7")
        (sL "x " ++ declOf kMajor (sL " ") (sL " ") (sL "1") ++ sL "\n" ++
          declOf kMajor (sL "\t") (sL "  ") (sL "25") ++ sL "\ny") =
      sL "x " ++ repDecl kMajor (sL "7") ++ sL "\n" ++ repDecl kMajor (sL "7") ++ sL "\ny" :=
  claimC10_sub_replaces_all_occurrences kMajor (sL "7") (sL "x ") (sL "\n") (sL "\ny")
    (sL " ") (sL " ") (sL "1") (sL "\t") (sL "  ") (sL "25")
    (by decide) (by decide) (by decide)
    (by decide) (by decide) (by decide) (by decide) (by decide) (by decide)
    (by decide) (by decide) (by decide) (by decide) (by decide) (by decide)
    (by decide)
    (key_head_not_ws_of kMajor 'V' rfl (by decide))
    (by
      intro b hb
      rw [show (sL "\n").head? = some '\n' from rfl, Option.some.injEq] at hb
      subst hb
      decide)
    (by
      intro b hb
      rw [show (sL "\ny").head? = some '\n' from rfl, Option.some.injEq] at hb
      subst hb
      decide)

theorem kMajor_ne_nil : kMajor ≠ [] := by decide

theorem kMinor_ne_nil : kMinor ≠ [] := by decide

theorem kPatch_ne_nil : kPatch ≠ [] := by decide

theorem kMajor_head_ws : ∀ b, kMajor.head? = some b → isWSCh b = false :=
  key_head_not_ws_of kMajor 'V' rfl (by decide)

theorem kMinor_head_ws : ∀ b, kMinor.head? = some b → isWSCh b = false :=
  key_head_not_ws_of kMinor 'V' rfl (by decide)

theorem kPatch_head_ws : ∀ b, kPatch.head? = some b → isWSCh b = false :=
  key_head_not_ws_of kPatch 'V' rfl (by decide)

theorem kMajor_noHash : ∀ c ∈ kMajor, c ≠ '#' := by decide

theorem kMinor_noHash : ∀ c ∈ kMinor, c ≠ '#' := by decide

theorem kPatch_noHash : ∀ c ∈ kPatch, c ≠ '#' := by decide

theorem mmMinorMajor : mismatchWithin kMinor kMajor = true := by decide

theorem mmPatchMajor : mismatchWithin kPatch kMajor = true := by decide

theorem mmPatchMinor : mismatchWithin kPatch kMinor = true := by decide

theorem mmMajorMinor : mismatchWithin kMajor kMinor = true := by decide

theorem mmMajorPatch : mismatchWithin kMajor kPatch = true := by decide

theorem mmMinorPatch : mismatchWithin kMinor kPatch = true := by decide

theorem spc_ne_nil : sL " " ≠ [] := by decide

theorem spc_ws : ∀ c ∈ sL " ", isWSCh c = true := by decide

/-- The text `re.sub` writes for a declaration is itself a declaration with
single-space whitespace runs. -/
theorem repDecl_eq_declOf (key nd : List Char) :
    repDecl key nd = declOf key (sL " ") (sL " ") nd := by
  simp [repDecl, declOf, sL]

/-- C6: for a header containing exactly one declaration of each of
VERSION_MAJOR, VERSION_MINOR and VERSION_PATCH (decomposed explicitly, with
the surrounding text free of `#` and not starting with a digit after a
declaration), a successful bump writes the three rewritten declarations and
reading the header again returns exactly the triple the bump returned. -/
theorem claimC6_bump_then_read_roundtrip
    (A B C E w1 w2 w3 w4 w5 w6 dsM dsN dsP part : List Char) (a b c : Nat)
    (hA : ∀ x ∈ A, x ≠ '#') (hB : ∀ x ∈ B, x ≠ '#')
    (hC : ∀ x ∈ C, x ≠ '#') (hE : ∀ x ∈ E, x ≠ '#')
    (hw1 : w1 ≠ []) (hw1a : ∀ x ∈ w1, isWSCh x = true)
    (hw2 : w2 ≠ []) (hw2a : ∀ x ∈ w2, isWSCh x = true)
    (hw3 : w3 ≠ []) (hw3a : ∀ x ∈ w3, isWSCh x = true)
    (hw4 : w4 ≠ []) (hw4a : ∀ x ∈ w4, isWSCh x = true)
    (hw5 : w5 ≠ []) (hw5a : ∀ x ∈ w5, isWSCh x = true)
    (hw6 : w6 ≠ []) (hw6a : ∀ x ∈ w6, isWSCh x = true)
    (hdsM : dsM ≠ []) (hdsMa : ∀ x ∈ dsM, isDigitCh x = true)
    (hdsN : dsN ≠ []) (hdsNa : ∀ x ∈ dsN, isDigitCh x = true)
    (hdsP : dsP ≠ []) (hdsPa : ∀ x ∈ dsP, isDigitCh x = true)
    (hBh : ∀ x, B.head? = some x → isDigitCh x = false)
    (hCh : ∀ x, C.head? = some x → isDigitCh x = false)
    (hEh : ∀ x, E.head? = some x → isDigitCh x = false)
    (hbp : bumpPart part (digitsToNat dsM) (digitsToNat dsN) (digitsToNat dsP) =
      some (a, b, c)) :
    bump_version part
        (A ++ declOf kMajor w1 w2 dsM ++ B ++ declOf kMinor w3 w4 dsN ++ C ++
          declOf kPatch w5 w6 dsP ++ E) =
      some (A ++ repDecl kMajor (natToDigits a) ++ B ++ repDecl kMinor (natToDigits b) ++
          C ++ repDecl kPatch (natToDigits c) ++ E, verStr a b c) ∧
    get_current_version
        (A ++ repDecl kMajor (natToDigits a) ++ B ++ repDecl kMinor (natToDigits b) ++
          C ++ repDecl kPatch (natToDigits c) ++ E) =
      some (a, b, c) := by
  have hndAa := natToDigits_all_digits a
  have hndBa := natToDigits_all_digits b
  have hndCa := natToDigits_all_digits c
  have hndA := natToDigits_ne_nil a
  have hndB := natToDigits_ne_nil b
  have hndC := natToDigits_ne_nil c
  have hR2 : ∀ x, (C ++ (declOf kPatch w5 w6 dsP ++ E)).head? = some x → isDigitCh x = false :=
    head_append_not_digit C _ hCh (head_declOf_append_not_digit kPatch w5 w6 dsP E)
  have hR1 : ∀ x, (B ++ (declOf kMinor w3 w4 dsN ++ (C ++ (declOf kPatch w5 w6 dsP ++ E)))).head? =
      some x → isDigitCh x = false :=
    head_append_not_digit B _ hBh (head_declOf_append_not_digit kMinor w3 w4 dsN _)
  have hR2' : ∀ x, (C ++ (declOf kPatch (sL " ") (sL " ") (natToDigits c) ++ E)).head? =
      some x → isDigitCh x = false :=
    head_append_not_digit C _ hCh (head_declOf_append_not_digit kPatch _ _ _ E)
  have hR1' : ∀ x, (B ++ (declOf kMinor (sL " ") (sL " ") (natToDigits b) ++
      (C ++ (declOf kPatch (sL " ") (sL " ") (natToDigits c) ++ E)))).head? =
      some x → isDigitCh x = false :=
    head_append_not_digit B _ hBh (head_declOf_append_not_digit kMinor _ _ _ _)
  have hR1m : ∀ x, (B ++ (declOf kMinor w3 w4 dsN ++
      (C ++ (declOf kPatch (sL " ") (sL " ") (natToDigits c) ++ E)))).head? =
      some x → isDigitCh x = false :=
    head_append_not_digit B _ hBh (head_declOf_append_not_digit kMinor _ _ _ _)
  have hR1n : ∀ x, (B ++ (declOf kMinor (sL " ") (sL " ") (natToDigits b) ++
      (C ++ (declOf kPatch w5 w6 dsP ++ E)))).head? =
      some x → isDigitCh x = false :=
    head_append_not_digit B _ hBh (head_declOf_append_not_digit kMinor _ _ _ _)
  have e_gcv : get_current_version
      (A ++ (declOf kMajor w1 w2 dsM ++ (B ++ (declOf kMinor w3 w4 dsN ++
        (C ++ (declOf kPatch w5 w6 dsP ++ E)))))) =
      some (digitsToNat dsM, digitsToNat dsN, digitsToNat dsP) := by
    have s1 : searchDefine kMajor
        (A ++ (declOf kMajor w1 w2 dsM ++ (B ++ (declOf kMinor w3 w4 dsN ++
          (C ++ (declOf kPatch w5 w6 dsP ++ E)))))) = some dsM := by
      rw [searchDefine_skip_noHash _ A _ hA,
        searchDefine_at_decl kMajor w1 w2 dsM _ hw1 hw1a hw2 hw2a hdsM hdsMa
          kMajor_ne_nil kMajor_head_ws hR1]
    have s2 : searchDefine kMinor
        (A ++ (declOf kMajor w1 w2 dsM ++ (B ++ (declOf kMinor w3 w4 dsN ++
          (C ++ (declOf kPatch w5 w6 dsP ++ E)))))) = some dsN := by
      rw [searchDefine_skip_noHash _ A _ hA,
        searchDefine_skip_foreign kMinor kMajor w1 w2 dsM _ mmMinorMajor hw1a hw2a hdsMa
          kMajor_head_ws kMajor_ne_nil kMajor_noHash,
        searchDefine_skip_noHash _ B _ hB,
        searchDefine_at_decl kMinor w3 w4 dsN _ hw3 hw3a hw4 hw4a hdsN hdsNa
          kMinor_ne_nil kMinor_head_ws hR2]
    have s3 : searchDefine kPatch
        (A ++ (declOf kMajor w1 w2 dsM ++ (B ++ (declOf kMinor w3 w4 dsN ++
          (C ++ (declOf kPatch w5 w6 dsP ++ E)))))) = some dsP := by
      rw [searchDefine_skip_noHash _ A _ hA,
        searchDefine_skip_foreign kPatch kMajor w1 w2 dsM _ mmPatchMajor hw1a hw2a hdsMa
          kMajor_head_ws kMajor_ne_nil kMajor_noHash,
        searchDefine_skip_noHash _ B _ hB,
        searchDefine_skip_foreign kPatch kMinor w3 w4 dsN _ mmPatchMinor hw3a hw4a hdsNa
          kMinor_head_ws kMinor_ne_nil kMinor_noHash,
        searchDefine_skip_noHash _ C _ hC,
        searchDefine_at_decl kPatch w5 w6 dsP E hw5 hw5a hw6 hw6a hdsP hdsPa
          kPatch_ne_nil kPatch_head_ws hEh]
    simp [get_current_version, s1, s2, s3]
  have e_h1 : subDefine kMajor (natToDigits a)
      (A ++ (declOf kMajor w1 w2 dsM ++ (B ++ (declOf kMinor w3 w4 dsN ++
        (C ++ (declOf kPatch w5 w6 dsP ++ E)))))) =
      A ++ (declOf kMajor (sL " ") (sL " ") (natToDigits a) ++ (B ++ (declOf kMinor w3 w4 dsN ++
        (C ++ (declOf kPatch w5 w6 dsP ++ E))))) := by
    rw [subDefine_skip_noHash _ _ A _ hA,
      subDefine_at_decl kMajor (natToDigits a) w1 w2 dsM _ hw1 hw1a hw2 hw2a hdsM hdsMa
        kMajor_ne_nil kMajor_head_ws hR1,
      subDefine_skip_noHash _ _ B _ hB,
      subDefine_skip_foreign kMajor (natToDigits a) kMinor w3 w4 dsN _ mmMajorMinor
        hw3a hw4a hdsNa kMinor_head_ws kMinor_ne_nil kMinor_noHash,
      subDefine_skip_noHash _ _ C _ hC,
      subDefine_skip_foreign kMajor (natToDigits a) kPatch w5 w6 dsP E mmMajorPatch
        hw5a hw6a hdsPa kPatch_head_ws kPatch_ne_nil kPatch_noHash,
      subDefine_eq_self_noHash kMajor (natToDigits a) E hE,
      repDecl_eq_declOf]
  have e_h2 : subDefine kMinor (natToDigits b)
      (A ++ (declOf kMajor (sL " ") (sL " ") (natToDigits a) ++ (B ++ (declOf kMinor w3 w4 dsN ++
        (C ++ (declOf kPatch w5 w6 dsP ++ E)))))) =
      A ++ (declOf kMajor (sL " ") (sL " ") (natToDigits a) ++
        (B ++ (declOf kMinor (sL " ") (sL " ") (natToDigits b) ++
          (C ++ (declOf kPatch w5 w6 dsP ++ E))))) := by
    rw [subDefine_skip_noHash _ _ A _ hA,
      subDefine_skip_foreign kMinor (natToDigits b) kMajor (sL " ") (sL " ") (natToDigits a) _
        mmMinorMajor spc_ws spc_ws hndAa kMajor_head_ws kMajor_ne_nil kMajor_noHash,
      subDefine_skip_noHash _ _ B _ hB,
      subDefine_at_decl kMinor (natToDigits b) w3 w4 dsN _ hw3 hw3a hw4 hw4a hdsN hdsNa
        kMinor_ne_nil kMinor_head_ws hR2,
      subDefine_skip_noHash _ _ C _ hC,
      subDefine_skip_foreign kMinor (natToDigits b) kPatch w5 w6 dsP E mmMinorPatch
        hw5a hw6a hdsPa kPatch_head_ws kPatch_ne_nil kPatch_noHash,
      subDefine_eq_self_noHash kMinor (natToDigits b) E hE,
      repDecl_eq_declOf]
  have e_h3 : subDefine kPatch (natToDigits c)
      (A ++ (declOf kMajor (sL " ") (sL " ") (natToDigits a) ++
        (B ++ (declOf kMinor (sL " ") (sL " ") (natToDigits b) ++
          (C ++ (declOf kPatch w5 w6 dsP ++ E)))))) =
      A ++ (declOf kMajor (sL " ") (sL " ") (natToDigits a) ++
        (B ++ (declOf kMinor (sL " ") (sL " ") (natToDigits b) ++
          (C ++ (declOf kPatch (sL " ") (sL " ") (natToDigits c) ++ E))))) := by
    rw [subDefine_skip_noHash _ _ A _ hA,
      subDefine_skip_foreign kPatch (natToDigits c) kMajor (sL " ") (sL " ") (natToDigits a) _
        mmPatchMajor spc_ws spc_ws hndAa kMajor_head_ws kMajor_ne_nil kMajor_noHash,
      subDefine_skip_noHash _ _ B _ hB,
      subDefine_skip_foreign kPatch (natToDigits c) kMinor (sL " ") (sL " ") (natToDigits b) _
        mmPatchMinor spc_ws spc_ws hndBa kMinor_head_ws kMinor_ne_nil kMinor_noHash,
      subDefine_skip_noHash _ _ C _ hC,
      subDefine_at_decl kPatch (natToDigits c) w5 w6 dsP E hw5 hw5a hw6 hw6a hdsP hdsPa
        kPatch_ne_nil kPatch_head_ws hEh,
      subDefine_eq_self_noHash kPatch (natToDigits c) E hE,
      repDecl_eq_declOf]
  have e_final : get_current_version
      (A ++ (declOf kMajor (sL " ") (sL " ") (natToDigits a) ++
        (B ++ (declOf kMinor (sL " ") (sL " ") (natToDigits b) ++
          (C ++ (declOf kPatch (sL " ") (sL " ") (natToDigits c) ++ E)))))) =
      some (a, b, c) := by
    have s1 : searchDefine kMajor
        (A ++ (declOf kMajor (sL " ") (sL " ") (natToDigits a) ++
          (B ++ (declOf kMinor (sL " ") (sL " ") (natToDigits b) ++
            (C ++ (declOf kPatch (sL " ") (sL " ") (natToDigits c) ++ E)))))) =
        some (natToDigits a) := by
      rw [searchDefine_skip_noHash _ A _ hA,
        searchDefine_at_decl kMajor (sL " ") (sL " ") (natToDigits a) _ spc_ne_nil spc_ws
          spc_ne_nil spc_ws hndA hndAa kMajor_ne_nil kMajor_head_ws hR1']
    have s2 : searchDefine kMinor
        (A ++ (declOf kMajor (sL " ") (sL " ") (natToDigits a) ++
          (B ++ (declOf kMinor (sL " ") (sL " ") (natToDigits b) ++
            (C ++ (declOf kPatch (sL " ") (sL " ") (natToDigits c) ++ E)))))) =
        some (natToDigits b) := by
      rw [searchDefine_skip_noHash _ A _ hA,
        searchDefine_skip_foreign kMinor kMajor (sL " ") (sL " ") (natToDigits a) _
          mmMinorMajor spc_ws spc_ws hndAa kMajor_head_ws kMajor_ne_nil kMajor_noHash,
        searchDefine_skip_noHash _ B _ hB,
        searchDefine_at_decl kMinor (sL " ") (sL " ") (natToDigits b) _ spc_ne_nil spc_ws
          spc_ne_nil spc_ws hndB hndBa kMinor_ne_nil kMinor_head_ws hR2']
    have s3 : searchDefine kPatch
        (A ++ (declOf kMajor (sL " ") (sL " ") (natToDigits a) ++
          (B ++ (declOf kMinor (sL " ") (sL " ") (natToDigits b) ++
            (C ++ (declOf kPatch (sL " ") (sL " ") (natToDigits c) ++ E)))))) =
        some (natToDigits c) := by
      rw [searchDefine_skip_noHash _ A _ hA,
        searchDefine_skip_foreign kPatch kMajor (sL " ") (sL " ") (natToDigits a) _
          mmPatchMajor spc_ws spc_ws hndAa kMajor_head_ws kMajor_ne_nil kMajor_noHash,
        searchDefine_skip_noHash _ B _ hB,
        searchDefine_skip_foreign kPatch kMinor (sL " ") (sL " ") (natToDigits b) _
          mmPatchMinor spc_ws spc_ws hndBa kMinor_head_ws kMinor_ne_nil kMinor_noHash,
        searchDefine_skip_noHash _ C _ hC,
        searchDefine_at_decl kPatch (sL " ") (sL " ") (natToDigits c) E spc_ne_nil spc_ws
          spc_ne_nil spc_ws hndC hndCa kPatch_ne_nil kPatch_head_ws hEh]
    simp [get_current_version, s1, s2, s3, digitsToNat_natToDigits]
  constructor
  · simp only [List.append_assoc, repDecl_eq_declOf]
    simp only [bump_version, e_gcv, hbp]
    rw [e_h1, e_h2, e_h3]
  · simp only [List.append_assoc, repDecl_eq_declOf]
    exact e_final

theorem head_nl_not_digit : ∀ x, (sL "\n").head? = some x → isDigitCh x = false := by
  intro x hx
  rw [show (sL "\n").head? = some '\n' from rfl, Option.some.injEq] at hx
  subst hx
  decide

/-- Witness for C6: bump-minor on a header declaring 1.4.9, then reading it
back, yields exactly 1.5.0. -/
theorem claimC6_witness :
    bump_version (sL "minor")
        ([] ++ declOf kMajor (sL " ") (sL " ") (sL "1") ++ sL "\n" ++
          declOf kMinor (sL " ") (sL " ") (sL "4") ++ sL "\n" ++
          declOf kPatch (sL " ") (sL " ") (sL "9") ++ sL "\n") =
      some ([] ++ repDecl kMajor (natToDigits 1) ++ sL "\n" ++
          repDecl kMinor (natToDigits 5) ++ sL "\n" ++
          repDecl kPatch (natToDigits 0) ++ sL "\n", verStr 1 5 0) ∧
    get_current_version
        ([] ++ repDecl kMajor (natToDigits 1) ++ sL "\n" ++
          repDecl kMinor (natToDigits 5) ++ sL "\n" ++
          repDecl kPatch (natToDigits 0) ++ sL "\n") =
      some (1, 5, 0) :=
  claimC6_bump_then_read_roundtrip [] (sL "\n") (sL "\n") (sL "\n")
    (sL " ") (sL " ") (sL " ") (sL " ") (sL " ") (sL " ")
    (sL "1") (sL "4") (sL "9") (sL "minor") 1 5 0
    (by decide) (by decide) (by decide) (by decide)
    spc_ne_nil spc_ws spc_ne_nil spc_ws spc_ne_nil spc_ws
    spc_ne_nil spc_ws spc_ne_nil spc_ws spc_ne_nil spc_ws
    (by decide) (by decide) (by decide) (by decide) (by decide) (by decide)
    head_nl_not_digit head_nl_not_digit head_nl_not_digit
    (by decide)

/-! ### Readme patcher: `update_readme_txt` -/

/-- Python `str.splitlines` boundary characters. -/
def isLB (c : Char) : Bool :=
  c = '\n' || c = '\r' || c = '\x0b' || c = '\x0c' || c = '\x1c' || c = '\x1d' ||
    c = '\x1e' || c = '\x85' || c = ' ' || c = ' '

/-- Consume one line boundary, treating `"\r\n"` as a single boundary as
`splitlines` does. -/
def dropLB (s : List Char) : List Char :=
  match s with
  | [] => []
  | c :: r =>
    if c = '\r' then
      match r with
      | d :: r2 => if d = '\n' then r2 else r
      | [] => r
    else r

/-- Fuel-driven `str.splitlines` (no `keepends`). -/
def splitLinesAux : Nat → List Char → List (List Char)
  | 0, _ => []
  | _ + 1, [] => []
  | fuel + 1, c :: t =>
    let line := (c :: t).takeWhile (fun x => !(isLB x))
    let rest := (c :: t).dropWhile (fun x => !(isLB x))
    if rest.isEmpty then [line] else line :: splitLinesAux fuel (dropLB rest)

/-- `str.splitlines`. -/
def splitLines (s : List Char) : List (List Char) := splitLinesAux s.length s

/-- `"\n".join(lines)`. -/
def joinNL : List (List Char) → List Char
  | [] => []
  | [l] => l
  | l :: ls => l ++ '\n' :: joinNL ls

/-- The fixed prefix `"Version "` recognised by `update_readme_txt`. -/
def verPre : List Char := sL "Version "

/-- The scan-and-replace-first loop of `update_readme_txt` (the `for` with
`break`). -/
def replFirst (version : List Char) : List (List Char) → List (List Char)
  | [] => []
  | l :: ls =>
    if startsWithL verPre l then (verPre ++ version) :: ls
    else l :: replFirst version ls

/-- Embedding of `update_readme_txt` on an existing file's content: split
into lines, replace the first line starting with `"Version "`, rejoin with
`"\n"`.  (The absent-file and exception paths perform no content change.) -/
def update_readme_txt (version content : List Char) : List Char :=
  joinNL (replFirst version (splitLines content))

theorem dropLB_length (s : List Char) (h : s ≠ []) : (dropLB s).length < s.length := by
  cases s with
  | nil => exact absurd rfl h
  | cons c r =>
    simp only [dropLB]
    by_cases hc : c = '\r'
    · simp only [hc, if_true]
      cases r with
      | nil => simp
      | cons d r2 =>
        by_cases hd : d = '\n'
        · simp only [hd, if_true, if_pos rfl, List.length_cons]
          omega
        · simp only [if_neg hd, List.length_cons]
          omega
    · simp only [if_neg hc, List.length_cons]
      omega

theorem dropLB_nl (r : List Char) : dropLB ('\n' :: r) = r := by
  simp [dropLB]

theorem splitLinesAux_fuel (f₁ f₂ : Nat) (s : List Char)
    (h₁ : s.length ≤ f₁) (h₂ : s.length ≤ f₂) :
    splitLinesAux f₁ s = splitLinesAux f₂ s := by
  induction f₁ generalizing f₂ s with
  | zero =>
    have hs : s = [] := by
      cases s with
      | nil => rfl
      | cons c t => simp at h₁
    subst hs
    cases f₂ <;> rfl
  | succ g ih =>
    cases s with
    | nil => cases f₂ <;> rfl
    | cons c t =>
      cases f₂ with
      | zero => simp at h₂
      | succ g₂ =>
        simp only [splitLinesAux]
        by_cases he : ((c :: t).dropWhile (fun x => !(isLB x))).isEmpty
        · simp [he]
        · simp only [he, Bool.false_eq_true, if_false]
          congr 1
          have hrne : (c :: t).dropWhile (fun x => !(isLB x)) ≠ [] := by
            cases hx : (c :: t).dropWhile (fun x => !(isLB x)) with
            | nil => rw [hx] at he; simp at he
            | cons d r => simp
          have hlen1 : ((c :: t).dropWhile (fun x => !(isLB x))).length ≤ t.length + 1 := by
            have := dropWhile_length_le (fun x => !(isLB x)) (c :: t)
            simpa using this
          have hlen2 := dropLB_length _ hrne
          simp only [List.length_cons] at h₁ h₂
          exact ih g₂ _ (by omega) (by omega)

theorem splitLines_cons (c : Char) (t : List Char) :
    splitLines (c :: t) =
      if ((c :: t).dropWhile (fun x => !(isLB x))).isEmpty
      then [(c :: t).takeWhile (fun x => !(isLB x))]
      else (c :: t).takeWhile (fun x => !(isLB x)) ::
        splitLines (dropLB ((c :: t).dropWhile (fun x => !(isLB x)))) := by
  show splitLinesAux (t.length + 1) (c :: t) = _
  simp only [splitLinesAux]
  by_cases he : ((c :: t).dropWhile (fun x => !(isLB x))).isEmpty
  · simp [he]
  · simp only [he, Bool.false_eq_true, if_false]
    congr 1
    have hrne : (c :: t).dropWhile (fun x => !(isLB x)) ≠ [] := by
      cases hx : (c :: t).dropWhile (fun x => !(isLB x)) with
      | nil => rw [hx] at he; simp at he
      | cons d r => simp
    have hlen1 : ((c :: t).dropWhile (fun x => !(isLB x))).length ≤ t.length + 1 := by
      have := dropWhile_length_le (fun x => !(isLB x)) (c :: t)
      simpa using this
    have hlen2 := dropLB_length _ hrne
    exact splitLinesAux_fuel t.length _ _ (by omega) (le_refl _)

theorem splitLines_cons_ne_nil (c : Char) (t : List Char) : splitLines (c :: t) ≠ [] := by
  rw [splitLines_cons]
  split <;> simp

theorem joinNL_cons_cons (l l2 : List Char) (ls : List (List Char)) :
    joinNL (l :: l2 :: ls) = l ++ '\n' :: joinNL (l2 :: ls) := rfl

theorem dropWhile_head_not (p : Char → Bool) (s : List Char) (d : Char) (r : List Char)
    (h : s.dropWhile p = d :: r) : p d = false := by
  induction s with
  | nil => simp at h
  | cons c t ih =>
    by_cases hc : p c
    · rw [List.dropWhile_cons_of_pos hc] at h
      exact ih h
    · rw [List.dropWhile_cons_of_neg hc] at h
      injection h with h1 h2
      subst h1
      simpa using hc

theorem joinNL_splitLines_aux (n : Nat) :
    ∀ content : List Char, content.length ≤ n →
      (∀ x ∈ content, isLB x = true → x = '\n') →
      content.getLast? ≠ some '\n' →
      joinNL (splitLines content) = content := by
  induction n with
  | zero =>
    intro content hlen _ _
    have hc : content = [] := by
      cases content with
      | nil => rfl
      | cons c t => simp at hlen
    subst hc
    rfl
  | succ n ih =>
    intro content hlen hnl hlast
    cases content with
    | nil => rfl
    | cons c t =>
      rw [splitLines_cons]
      have hsplit := List.takeWhile_append_dropWhile (fun x => !(isLB x)) (c :: t)
      by_cases he : ((c :: t).dropWhile (fun x => !(isLB x))).isEmpty
      · have hrest : (c :: t).dropWhile (fun x => !(isLB x)) = [] := by
          cases hx : (c :: t).dropWhile (fun x => !(isLB x)) with
          | nil => rfl
          | cons d r => rw [hx] at he; simp at he
        rw [if_pos he]
        show (c :: t).takeWhile (fun x => !(isLB x)) = c :: t
        rw [hrest, List.append_nil] at hsplit
        exact hsplit
      · rw [if_neg he]
        cases hx : (c :: t).dropWhile (fun x => !(isLB x)) with
        | nil => rw [hx] at he; simp at he
        | cons d r =>
          have hd : isLB d = true := by
            have := dropWhile_head_not (fun x => !(isLB x)) (c :: t) d r hx
            simpa using this
          have hdmem : d ∈ c :: t := by
            rw [← hsplit, hx]
            simp
          have hdn : d = '\n' := hnl d hdmem hd
          subst hdn
          rw [dropLB_nl]
          have hshape : c :: t = (c :: t).takeWhile (fun x => !(isLB x)) ++ '\n' :: r := by
            rw [← hx]
            exact hsplit.symm
          cases r with
          | nil =>
            exfalso
            apply hlast
            rw [hshape]
            exact List.getLast?_concat _
          | cons e r2 =>
            have hlc : ((c :: t).takeWhile (fun x => !(isLB x))).length + (e :: r2).length + 1
                = (c :: t).length := by
              conv_rhs => rw [hshape]
              simp only [List.length_append, List.length_cons]
              omega
            have hr : joinNL (splitLines (e :: r2)) = e :: r2 := by
              apply ih (e :: r2)
              · simp only [List.length_cons] at hlen hlc ⊢
                omega
              · intro x hx2 hlbx
                exact hnl x (by rw [hshape]; simp [hx2]) hlbx
              · intro hbad
                apply hlast
                rw [hshape, List.getLast?_append_of_ne_nil _ (by simp)]
                rw [show ('\n' :: e :: r2).getLast? = (e :: r2).getLast? from rfl]
                exact hbad
            cases hsp : splitLines (e :: r2) with
            | nil => exact absurd hsp (splitLines_cons_ne_nil e r2)
            | cons l2 ls2 =>
              rw [joinNL_cons_cons, ← hsp, hr]
              exact hshape.symm

/-- C4 counterexample: on content `"abc\n"` no line starts with
`"Version "`, yet the content written back is `"abc"`, not the original
`"abc\n"` — `splitlines` plus `"\n".join` drops the trailing newline, so
"the file content written back is unchanged" is false as stated. -/
theorem claimC4_counterexample :
    (splitLines (sL "abc\n")).all (fun l => !(startsWithL verPre l)) = true ∧
    update_readme_txt (sL "1.2.3") (sL "abc\n") = sL "abc" ∧
    sL "abc" ≠ sL "abc\n" := by
  refine ⟨by decide, by decide, by decide⟩

/-- C4 amended: the readme update replaces exactly the first line beginning
with `"Version "` and keeps every other line byte-identical, rejoining the
lines with single `"\n"` separators; when no line matches, the written
content equals the original only under the amendment's proviso that the
original used only `"\n"` line separators and had no trailing line
terminator (otherwise the join normalises them away). -/
theorem claimC4_readme_first_line_frame :
    (∀ v L1 l L2, (∀ u ∈ L1, startsWithL verPre u = false) →
      startsWithL verPre l = true →
      replFirst v (L1 ++ l :: L2) = L1 ++ (verPre ++ v) :: L2) ∧
    (∀ v lines, (∀ u ∈ lines, startsWithL verPre u = false) →
      replFirst v lines = lines) ∧
    (∀ v content, update_readme_txt v content = joinNL (replFirst v (splitLines content))) ∧
    (∀ v content, (∀ x ∈ content, isLB x = true → x = '\n') →
      content.getLast? ≠ some '\n' →
      (∀ u ∈ splitLines content, startsWithL verPre u = false) →
      update_readme_txt v content = content) := by
  have part1 : ∀ (v : List Char) L1 (l : List Char) L2,
      (∀ u ∈ L1, startsWithL verPre u = false) → startsWithL verPre l = true →
      replFirst v (L1 ++ l :: L2) = L1 ++ (verPre ++ v) :: L2 := by
    intro v L1 l L2 h1 hl
    induction L1 with
    | nil => simp [replFirst, hl]
    | cons u us ih =>
      have hu : startsWithL verPre u = false := h1 u (by simp)
      simp only [List.cons_append, replFirst, hu, Bool.false_eq_true, if_false,
        List.append_eq]
      rw [ih (fun x hx => h1 x (List.mem_cons_of_mem _ hx))]
  have part2 : ∀ (v : List Char) lines, (∀ u ∈ lines, startsWithL verPre u = false) →
      replFirst v lines = lines := by
    intro v lines h
    induction lines with
    | nil => rfl
    | cons u us ih =>
      have hu : startsWithL verPre u = false := h u (by simp)
      simp only [replFirst, hu, Bool.false_eq_true, if_false]
      rw [ih (fun x hx => h x (List.mem_cons_of_mem _ hx))]
  refine ⟨part1, part2, fun v content => rfl, ?_⟩
  intro v content hnl hlast hnom
  show joinNL (replFirst v (splitLines content)) = content
  rw [part2 v (splitLines content) hnom]
  exact joinNL_splitLines_aux content.length content (le_refl _) hnl hlast

/-- Witness for C4: a matching line is replaced in place, and a
matching-free two-line file without trailing newline is written back
unchanged. -/
theorem claimC4_witness :
    replFirst (sL "2.0") ([sL "KCD2 TPVToggle"] ++ sL "Version 1.0" :: [sL "by tkhquang"]) =
      [sL "KCD2 TPVToggle"] ++ (verPre ++ sL "2.0") :: [sL "by tkhquang"] ∧
    update_readme_txt (sL "2.0") (sL "hello\nworld") = sL "hello\nworld" :=
  ⟨claimC4_readme_first_line_frame.1 (sL "2.0") [sL "KCD2 TPVToggle"]
      (sL "Version 1.0") [sL "by tkhquang"] (by decide) (by decide),
    claimC4_readme_first_line_frame.2.2.2 (sL "2.0") (sL "hello\nworld")
      (by decide) (by decide) (by decide)⟩

/-! ### Changelog editor: `update_changelog` -/

/-- The fixed description sentence of the changelog template. -/
def descLine : List Char :=
  sL "All notable changes to the TPVToggle mod will be documented in this file."

/-- The literal `"# Changelog"` looked up by the self-repair code. -/
def chHdr : List Char := sL "# Changelog"

/-- The literal `"All notable changes"` of the malformation check. -/
def allNotable : List Char := sL "All notable changes"

/-- The `changelog_template` string of `update_changelog`. -/
def changelogTemplate : List Char :=
  sL "# Changelog\n\nAll notable changes to the TPVToggle mod will be documented in this file.\n\n"

/-- A blank-line pair. -/
def nlnl : List Char := sL "\n\n"

/-- Fuel-driven Python `str.split(sep)` for nonempty `sep`: cut at each
leftmost non-overlapping occurrence. -/
def pySplitAux (sep : List Char) : Nat → List Char → List Char → List (List Char)
  | 0, acc, s => [acc.reverse ++ s]
  | _ + 1, acc, [] => [acc.reverse]
  | fuel + 1, acc, c :: t =>
    if startsWithL sep (c :: t) then
      acc.reverse :: pySplitAux sep fuel [] ((c :: t).drop sep.length)
    else pySplitAux sep fuel (c :: acc) t

/-- Python `s.split(sep)`. -/
def pySplit (sep s : List Char) : List (List Char) := pySplitAux sep (s.length + 1) [] s

/-- Python `s.lstrip()`. -/
def pyLStrip (s : List Char) : List Char := s.dropWhile isWSCh

/-- Python `s.rstrip()`. -/
def pyRStrip (s : List Char) : List Char := (s.reverse.dropWhile isWSCh).reverse

/-- Python `s.strip()`. -/
def pyStrip (s : List Char) : List Char := pyRStrip (pyLStrip s)

/-- The self-repair normalisation at the top of `update_changelog` (lines
145–162): when `"# Changelog"` occurs, rebuild the document from the fixed
template plus the rescued tail; otherwise leave the content untouched. -/
def normalizeChangelog (c : List Char) : List Char :=
  if occursIn chHdr c then
    if occursIn allNotable c then
      let parts := pySplit descLine c
      if 1 < parts.length then changelogTemplate ++ pyStrip (parts.getD 1 [])
      else changelogTemplate
    else changelogTemplate ++ pyStrip ((pySplit chHdr c).getD 1 [])
  else c

/-- The exact-version guard substring `f"## [{version}]"`. -/
def sectionGuard (version : List Char) : List Char := sL "## [" ++ version ++ sL "]"

/-- The section header, optionally suffixed with ` - title`. -/
def versionHdr (version title : List Char) : List Char :=
  sectionGuard version ++ (if title.isEmpty then [] else sL " - " ++ title)

/-- The insertion-point computation (lines 174–181): the first blank-line
pair at or after the description sentence, or the fallback via
`"# Changelog"`, `+ 2`, with Python's `-1` conventions. -/
def insertPos (content : List Char) : Nat :=
  let hep := pyFindI descLine content 0
  (if hep ≠ -1 then pyFindI nlnl content hep + 2
   else pyFindI nlnl content (pyFindI chHdr content 0) + 2).toNat

/-- Entry formatting (lines 186–194): strip, split on `'\n'`, rstrip each
line, rejoin. -/
def fmtEntry (entry : List Char) : List Char :=
  joinNL ((pySplit (sL "\n") (pyStrip entry)).map pyRStrip)

/-- The new version section `f"{version_header}\n\n{formatted_entry}\n\n"`. -/
def newSection (version title entry : List Char) : List Char :=
  versionHdr version title ++ nlnl ++ fmtEntry entry ++ nlnl

/-- Maximal-munch matcher for `\[([0-9]+\.[0-9]+\.[0-9]+)\]: (.*)` at the
head of `s`: returns ((version group, url group), remainder). -/
def matchLinkAt (s : List Char) : Option ((List Char × List Char) × List Char) :=
  match s with
  | '[' :: r1 =>
    let d1 := r1.takeWhile isDigitCh
    if d1.isEmpty then none
    else
      match r1.dropWhile isDigitCh with
      | '.' :: r2 =>
        let d2 := r2.takeWhile isDigitCh
        if d2.isEmpty then none
        else
          match r2.dropWhile isDigitCh with
          | '.' :: r3 =>
            let d3 := r3.takeWhile isDigitCh
            if d3.isEmpty then none
            else
              match dropPre (sL "]: ") (r3.dropWhile isDigitCh) with
              | some r4 =>
                some ((d1 ++ '.' :: d2 ++ '.' :: d3, r4.takeWhile (fun c => !(c = '\n'))),
                  r4.dropWhile (fun c => !(c = '\n')))
              | none => none
          | _ => none
      | _ => none
  | _ => none

/-- Fuel-driven `re.finditer` for the link pattern: leftmost,
non-overlapping. -/
def extractLinksAux : Nat → List Char → List (List Char × List Char)
  | 0, _ => []
  | _ + 1, [] => []
  | fuel + 1, c :: t =>
    match matchLinkAt (c :: t) with
    | some (pr, rest) => pr :: extractLinksAux fuel rest
    | none => extractLinksAux fuel t

/-- All `[X.Y.Z]: url` matches of a document, in order. -/
def extractLinks (s : List Char) : List (List Char × List Char) := extractLinksAux s.length s

/-- The link-removal pattern `\n\[[0-9]+\.[0-9]+\.[0-9]+\]\: .*` at the head
of `s`: a newline followed by a link line. -/
def matchNLLinkAt : List Char → Option (List Char)
  | '\n' :: t => (matchLinkAt t).map Prod.snd
  | _ => none

/-- Fuel-driven `re.sub(r'\n\[...\]: .*', '', s)`. -/
def subLinksAux : Nat → List Char → List Char
  | 0, s => s
  | _ + 1, [] => []
  | fuel + 1, c :: t =>
    match matchNLLinkAt (c :: t) with
    | some rest => subLinksAux fuel rest
    | none => c :: subLinksAux fuel t

/-- Deletion of every `\n[X.Y.Z]: url` line. -/
def subLinks (s : List Char) : List Char := subLinksAux s.length s

/-- The sort key `[int(n) for n in v.split('.')]`; `none` when a chunk is
not a run of digits (where Python's `int()` raises). -/
def keyOf? (v : List Char) : Option (List Nat) :=
  let chunks := pySplit (sL ".") v
  if chunks.all (fun ch => !ch.isEmpty && ch.all isDigitCh) then some (chunks.map digitsToNat)
  else none

/-- Total version of the key for use inside the comparator. -/
def keyD (v : List Char) : List Nat := (keyOf? v).getD []

/-- Python list `<` on integer lists. -/
def lexLtN : List Nat → List Nat → Bool
  | [], [] => false
  | [], _ :: _ => true
  | _ :: _, [] => false
  | a :: as, b :: bs => if a < b then true else if b < a then false else lexLtN as bs

/-- The relation "sorts no later than" of the descending stable sort
`list.sort(key=..., reverse=True)`. -/
def linkGe (p q : List Char × List Char) : Prop := lexLtN (keyD p.1) (keyD q.1) = false

instance : DecidableRel linkGe := fun p q => instDecidableEqBool (lexLtN (keyD p.1) (keyD q.1)) false

/-- The descending stable sort of the link list; `none` when a key raises. -/
def sortLinks (ls : List (List Char × List Char)) : Option (List (List Char × List Char)) :=
  if ls.all (fun p => (keyOf? p.1).isSome) then some (List.insertionSort linkGe ls) else none

/-- The synthesized release-tag URL. -/
def synthURL (version : List Char) : List Char :=
  sL "https://github.com/tkhquang/KCD2Tools/releases/tag/TPVToggle-v" ++ version

/-- The trailing reference block: one `\n[v]: url` per link. -/
def linkBlock : List (List Char × List Char) → List Char
  | [] => []
  | (v, u) :: ls => ('\n' :: '[' :: (v ++ sL "]: " ++ u)) ++ linkBlock ls

/-- The in-memory content the editor starts from: the template for a missing
file, the self-repaired text otherwise. -/
def contentOf : Option (List Char) → List Char
  | none => changelogTemplate
  | some c => normalizeChangelog c

/-- The document with the new section spliced in at the insertion point
(line 200). -/
def updatedDoc (version title entry content : List Char) : List Char :=
  content.take (insertPos content) ++ newSection version title entry ++
    content.drop (insertPos content)

/-- The link list before sorting: all extracted links, plus the synthesized
one when the target version is not among them (lines 203–219). -/
def linksFor (version updated : List Char) : List (List Char × List Char) :=
  let links := extractLinks updated
  if links.any (fun p => p.1 = version) then links
  else links ++ [(version, synthURL version)]

/-- The write stage of `update_changelog` (lines 196–231): splice the
section, extract and delete the links, sort, re-append. -/
def applyChangelog (version title entry content : List Char) : Option (List Char) :=
  match sortLinks (linksFor version (updatedDoc version title entry content)) with
  | none => none
  | some ls =>
    some (pyRStrip (subLinks (updatedDoc version title entry content)) ++ sL "\n" ++
      linkBlock ls ++ sL "\n")

/-- Embedding of `update_changelog` on file content: `none` when nothing is
written (missing entry, duplicate section, or a raising sort key); `some`
carries the exact content written back. -/
def update_changelog (version title entry : List Char) (file : Option (List Char)) :
    Option (List Char) :=
  if occursIn (sectionGuard version) (contentOf file) then none
  else if entry.isEmpty then none
  else applyChangelog version title entry (contentOf file)

/-- C9: with an empty (or absent) changelog-entry text the changelog update
writes nothing, for every version, title and current file state — a
non-empty entry is a precondition for any write. -/
theorem claimC9_empty_entry_never_writes (version title : List Char)
    (file : Option (List Char)) :
    update_changelog version title [] file = none := by
  simp [update_changelog]

/-- C5 counterexample: for an EMPTY (existing, zero-length) changelog file
the update does not produce the title-and-description preamble the claim
describes — the written document starts directly with the section header,
because the self-repair only fires when `"# Changelog"` already occurs. -/
theorem claimC5_counterexample :
    update_changelog (sL "2.0.0") [] (sL "- Fixed X") (some []) =
      some (sL "## [2.0.0]\n\n- Fixed X\n\n[2.0.0]: https://github.com/tkhquang/KCD2Tools/releases/tag/TPVToggle-v2.0.0\n") ∧
    startsWithL chHdr
      (sL "## [2.0.0]\n\n- Fixed X\n\n[2.0.0]: https://github.com/tkhquang/KCD2Tools/releases/tag/TPVToggle-v2.0.0\n") = false := by
  refine ⟨by decide, by decide⟩

/-- C5 amended: for an ABSENT changelog file the update produces exactly the
preamble, one `## [2.0.0]` section with body `- Fixed X`, and the trailing
synthesized link line; for an empty existing file it produces the same
document minus the preamble. -/
theorem claimC5_initial_document :
    update_changelog (sL "2.0.0") [] (sL "- Fixed X") none =
      some (changelogTemplate ++
        sL "## [2.0.0]\n\n- Fixed X\n\n[2.0.0]: https://github.com/tkhquang/KCD2Tools/releases/tag/TPVToggle-v2.0.0\n") ∧
    update_changelog (sL "2.0.0") [] (sL "- Fixed X") (some []) =
      some (sL "## [2.0.0]\n\n- Fixed X\n\n[2.0.0]: https://github.com/tkhquang/KCD2Tools/releases/tag/TPVToggle-v2.0.0\n") := by
  refine ⟨by decide, by decide⟩

/-! ### Order facts for the link sort -/

theorem lexLtN_irrefl (a : List Nat) : lexLtN a a = false := by
  induction a with
  | nil => rfl
  | cons x xs ih => simp [lexLtN, ih]

theorem lexLtN_asymm (a b : List Nat) (h : lexLtN a b = true) : lexLtN b a = false := by
  induction a generalizing b with
  | nil =>
    cases b with
    | nil => simpa [lexLtN] using h
    | cons y ys => simp [lexLtN]
  | cons x xs ih =>
    cases b with
    | nil => simp [lexLtN] at h
    | cons y ys =>
      simp only [lexLtN] at h ⊢
      by_cases hxy : x < y
      · simp [hxy, Nat.not_lt.mpr (Nat.le_of_lt hxy), Nat.lt_asymm hxy]
      · simp only [hxy, if_false] at h
        by_cases hyx : y < x
        · simp [hyx] at h
        · simp only [hyx, if_false] at h
          simp [hyx, hxy, ih ys h]

theorem lexLtN_trans (a b c : List Nat) (h₁ : lexLtN a b = true) (h₂ : lexLtN b c = true) :
    lexLtN a c = true := by
  induction a generalizing b c with
  | nil =>
    cases c with
    | nil =>
      cases b with
      | nil => simpa [lexLtN] using h₁
      | cons y ys => simp [lexLtN] at h₂
    | cons z zs => simp [lexLtN]
  | cons x xs ih =>
    cases b with
    | nil => simp [lexLtN] at h₁
    | cons y ys =>
      cases c with
      | nil => simp [lexLtN] at h₂
      | cons z zs =>
        simp only [lexLtN] at h₁ h₂ ⊢
        by_cases hxy : x < y
        · by_cases hyz : y < z
          · simp [Nat.lt_trans hxy hyz]
          · simp only [hyz, if_false] at h₂
            by_cases hzy : z < y
            · simp [hzy] at h₂
            · have he : y = z := by omega
              subst he
              simp [hxy]
        · simp only [hxy, if_false] at h₁
          by_cases hyx : y < x
          · simp [hyx] at h₁
          · have he : x = y := by omega
            subst he
            simp only [lt_irrefl, if_false] at h₁
            by_cases hxz : x < z
            · simp [hxz]
            · simp only [hxz, if_false] at h₂ ⊢
              by_cases hzx : z < x
              · simp [hzx] at h₂
              · simp only [hzx, if_false] at h₂ ⊢
                exact ih ys zs h₁ h₂

theorem lexLtN_trichotomy (a b : List Nat) (h₁ : lexLtN a b = false)
    (h₂ : lexLtN b a = false) : a = b := by
  induction a generalizing b with
  | nil =>
    cases b with
    | nil => rfl
    | cons y ys => simp [lexLtN] at h₁
  | cons x xs ih =>
    cases b with
    | nil => simp [lexLtN] at h₂
    | cons y ys =>
      simp only [lexLtN] at h₁ h₂
      by_cases hxy : x < y
      · simp [hxy] at h₁
      · by_cases hyx : y < x
        · simp [hyx] at h₂
        · have he : x = y := by omega
          subst he
          simp only [lt_irrefl, if_false] at h₁ h₂
          rw [ih ys h₁ h₂]

instance : IsTotal (List Char × List Char) linkGe := by
  constructor
  intro p q
  by_cases h : lexLtN (keyD p.1) (keyD q.1) = true
  · right
    exact lexLtN_asymm _ _ h
  · left
    simpa [linkGe] using h

instance : IsTrans (List Char × List Char) linkGe := by
  constructor
  intro p q r h₁ h₂
  simp only [linkGe] at h₁ h₂ ⊢
  by_cases h : lexLtN (keyD p.1) (keyD r.1) = true
  · exfalso
    by_cases hqp : lexLtN (keyD q.1) (keyD p.1) = true
    · have := lexLtN_trans _ _ _ hqp h
      rw [this] at h₂
      exact absurd h₂ (by simp)
    · have he := lexLtN_trichotomy _ _ h₁ (by simpa using hqp)
      rw [← he] at h₂
      rw [h] at h₂
      exact absurd h₂ (by simp)
  · simpa using h


theorem update_changelog_some (version title entry : List Char) (file : Option (List Char))
    (out : List Char) (h : update_changelog version title entry file = some out) :
    occursIn (sectionGuard version) (contentOf file) = false ∧
      applyChangelog version title entry (contentOf file) = some out := by
  unfold update_changelog at h
  split at h
  · exact absurd h (by simp)
  · split at h
    · exact absurd h (by simp)
    · rename_i hguard _
      exact ⟨by simpa using hguard, h⟩

theorem update_changelog_of_guard (version title entry : List Char) (file : Option (List Char))
    (hguard : occursIn (sectionGuard version) (contentOf file) = true) :
    update_changelog version title entry file = none := by
  unfold update_changelog
  rw [if_pos hguard]

theorem applyChangelog_some (version title entry content out : List Char)
    (h : applyChangelog version title entry content = some out) :
    ∃ ls, sortLinks (linksFor version (updatedDoc version title entry content)) = some ls ∧
      out = pyRStrip (subLinks (updatedDoc version title entry content)) ++ sL "\n" ++
        linkBlock ls ++ sL "\n" := by
  unfold applyChangelog at h
  cases hs : sortLinks (linksFor version (updatedDoc version title entry content)) with
  | none =>
    rw [hs] at h
    exact absurd h (by simp)
  | some ls =>
    rw [hs] at h
    simp only [Option.some.injEq] at h
    exact ⟨ls, rfl, h.symm⟩

theorem sortLinks_some (L ls : List (List Char × List Char)) (hs : sortLinks L = some ls) :
    ls = List.insertionSort linkGe L := by
  unfold sortLinks at hs
  split at hs
  · simpa using hs.symm
  · exact absurd hs (by simp)

/-- C3 amended: every successful changelog update emits the trailing
reference block sorted descending by the numeric (major, minor, patch) key
— weakly in general (equal keys, e.g. duplicate link lines for one version,
stay adjacent in input order), and strictly whenever the keys are pairwise
distinct. -/
theorem claimC3_link_block_sorted (version title entry : List Char)
    (file : Option (List Char)) (out : List Char)
    (h : update_changelog version title entry file = some out) :
    ∃ body ls, out = body ++ sL "\n" ++ linkBlock ls ++ sL "\n" ∧
      ls.Pairwise linkGe ∧
      ((ls.map (fun p => keyD p.1)).Nodup →
        ls.Pairwise (fun p q => lexLtN (keyD q.1) (keyD p.1) = true)) := by
  obtain ⟨-, happ⟩ := update_changelog_some version title entry file out h
  obtain ⟨ls, hs, hout⟩ := applyChangelog_some version title entry (contentOf file) out happ
  have hsorted : ls.Pairwise linkGe := by
    rw [sortLinks_some _ _ hs]
    exact List.sorted_insertionSort linkGe _
  refine ⟨pyRStrip (subLinks (updatedDoc version title entry (contentOf file))), ls, hout,
    hsorted, ?_⟩
  intro hnodup
  have hne : ls.Pairwise (fun p q => keyD p.1 ≠ keyD q.1) := by
    rw [← List.pairwise_map]
    exact hnodup
  refine (hsorted.and hne).imp ?_
  intro p q hpq
  rcases hpq with ⟨hge, hne'⟩
  by_cases hqp : lexLtN (keyD q.1) (keyD p.1) = true
  · exact hqp
  · exact absurd (lexLtN_trichotomy (keyD p.1) (keyD q.1) (by simpa [linkGe] using hge)
      (by simpa using hqp)) hne'

/-- A well-formed changelog that contains two link lines for version 0.1.0. -/
def dupLinksDoc : List Char :=
  sL "# Changelog\n\nAll notable changes to the TPVToggle mod will be documented in this file.\n\n## [0.1.0]\n\n- old\n\n[0.1.0]: a\n[0.1.0]: b\n"

/-- The document the update writes for `dupLinksDoc`. -/
def dupLinksOut : List Char :=
  sL "# Changelog\n\nAll notable changes to the TPVToggle mod will be documented in this file.\n\n## [0.2.0]\n\n- new\n\n## [0.1.0]\n\n- old\n\n[0.2.0]: https://github.com/tkhquang/KCD2Tools/releases/tag/TPVToggle-v0.2.0\n[0.1.0]: a\n[0.1.0]: b\n"

/-- C3 counterexample: when the input contains two link lines for the same
version, the written trailing block keeps both with equal numeric keys, so
it is NOT sorted strictly descending as the claim states (only weakly). -/
theorem claimC3_counterexample :
    update_changelog (sL "0.2.0") [] (sL "- new") (some dupLinksDoc) = some dupLinksOut ∧
    extractLinks dupLinksOut =
      [(sL "0.2.0", synthURL (sL "0.2.0")), (sL "0.1.0", sL "a"), (sL "0.1.0", sL "b")] ∧
    ¬ (extractLinks dupLinksOut).Pairwise
        (fun p q => lexLtN (keyD q.1) (keyD p.1) = true) := by
  refine ⟨by decide, by decide, by decide⟩

/-- The document written for a fresh changelog, used by the C3 witness. -/
def sortedWitnessOut : List Char :=
  (update_changelog (sL "3.1.4") [] (sL "- w") none).getD []

/-- Witness for C3 at a concrete successful update. -/
theorem claimC3_witness :
    ∃ body ls, sortedWitnessOut = body ++ sL "\n" ++ linkBlock ls ++ sL "\n" ∧
      ls.Pairwise linkGe ∧
      ((ls.map (fun p => keyD p.1)).Nodup →
        ls.Pairwise (fun p q => lexLtN (keyD q.1) (keyD p.1) = true)) :=
  claimC3_link_block_sorted (sL "3.1.4") [] (sL "- w") none sortedWitnessOut (by rfl)

/-! ### Splitting machinery for the self-repair and guard analysis -/

theorem pySplitAux_fuel (sep : List Char) (hsep : sep ≠ []) (f₁ f₂ : Nat)
    (acc s : List Char) (h₁ : s.length < f₁) (h₂ : s.length < f₂) :
    pySplitAux sep f₁ acc s = pySplitAux sep f₂ acc s := by
  induction f₁ generalizing f₂ acc s with
  | zero => omega
  | succ g ih =>
    cases s with
    | nil =>
      cases f₂ with
      | zero => omega
      | succ g₂ => rfl
    | cons c t =>
      cases f₂ with
      | zero => omega
      | succ g₂ =>
        simp only [pySplitAux]
        by_cases hsw : startsWithL sep (c :: t) = true
        · simp only [hsw, if_true]
          congr 1
          have hdl : ((c :: t).drop sep.length).length < g := by
            have hsl : 1 ≤ sep.length := by
              cases sep with
              | nil => exact absurd rfl hsep
              | cons a b => simp
            simp only [List.length_drop, List.length_cons] at *
            omega
          have hdl₂ : ((c :: t).drop sep.length).length < g₂ := by
            have hsl : 1 ≤ sep.length := by
              cases sep with
              | nil => exact absurd rfl hsep
              | cons a b => simp
            simp only [List.length_drop, List.length_cons] at *
            omega
          exact ih g₂ [] _ hdl hdl₂
        · simp only [hsw, Bool.false_eq_true, if_false]
          simp only [List.length_cons] at h₁ h₂
          exact ih g₂ (c :: acc) t (by omega) (by omega)

theorem pySplitAux_ne_nil (sep : List Char) (f : Nat) (acc s : List Char) :
    pySplitAux sep f acc s ≠ [] := by
  induction f generalizing acc s with
  | zero => simp [pySplitAux]
  | succ g ih =>
    cases s with
    | nil => simp [pySplitAux]
    | cons c t =>
      simp only [pySplitAux]
      by_cases hsw : startsWithL sep (c :: t) = true
      · simp [hsw]
      · simp only [hsw, Bool.false_eq_true, if_false]
        exact ih (c :: acc) t

/-- Walking the splitter past a block whose characters cannot start the
separator. -/
theorem pySplitAux_skipA (d : Char) (s' A T acc : List Char) (f : Nat)
    (hA : ∀ c ∈ A, c ≠ d) (hf : A.length ≤ f) :
    pySplitAux (d :: s') (f + 1) acc (A ++ T) =
      pySplitAux (d :: s') (f + 1 - A.length) (A.reverse ++ acc) T := by
  induction A generalizing acc f with
  | nil => simp
  | cons c t ih =>
    have hc : c ≠ d := hA c (by simp)
    simp only [List.cons_append, pySplitAux,
      startsWithL_eq_false_of_head_ne s' d c _ hc, Bool.false_eq_true, if_false,
      List.append_eq]
    simp only [List.length_cons] at hf
    cases f with
    | zero => omega
    | succ g =>
      rw [ih (c :: acc) g (fun x hx => hA x (List.mem_cons_of_mem _ hx)) (by omega)]
      congr 1
      · simp only [List.length_cons]
        omega
      · simp [List.reverse_cons, List.append_assoc]

/-- The head of any splitter result extends the pending accumulator. -/
theorem pySplitAux_headD (sep : List Char) (f : Nat) (acc s : List Char) :
    ∃ W, (pySplitAux sep f acc s).headD [] = acc.reverse ++ W := by
  induction f generalizing acc s with
  | zero => exact ⟨s, rfl⟩
  | succ g ih =>
    cases s with
    | nil => exact ⟨[], by simp [pySplitAux]⟩
    | cons c t =>
      simp only [pySplitAux]
      by_cases hsw : startsWithL sep (c :: t) = true
      · exact ⟨[], by simp [hsw]⟩
      · simp only [hsw, Bool.false_eq_true, if_false]
        obtain ⟨W, hW⟩ := ih (c :: acc) t
        refine ⟨c :: W, ?_⟩
        rw [hW]
        simp [List.reverse_cons, List.append_assoc]

/-- The first piece produced after a separator extends any block whose
characters cannot start the separator. -/
theorem pySplitAux_first_noSep (d : Char) (s' B Z acc : List Char) (f : Nat)
    (hB : ∀ c ∈ B, c ≠ d) :
    ∃ W, (pySplitAux (d :: s') f acc (B ++ Z)).headD [] = acc.reverse ++ B ++ W := by
  induction B generalizing acc f with
  | nil =>
    obtain ⟨W, hW⟩ := pySplitAux_headD (d :: s') f acc Z
    exact ⟨W, by simpa using hW⟩
  | cons c t ih =>
    have hc : c ≠ d := hB c (by simp)
    cases f with
    | zero =>
      refine ⟨Z, ?_⟩
      simp [pySplitAux, List.append_assoc]
    | succ g =>
      simp only [List.cons_append, pySplitAux,
        startsWithL_eq_false_of_head_ne s' d c _ hc, Bool.false_eq_true, if_false,
        List.append_eq]
      obtain ⟨W, hW⟩ := ih (c :: acc) g (fun x hx => hB x (List.mem_cons_of_mem _ hx))
      refine ⟨W, ?_⟩
      rw [hW]
      simp [List.reverse_cons, List.append_assoc]

/-- The template text before the description sentence. -/
def preTemplate : List Char := sL "# Changelog\n\n"

/-- The description sentence minus its leading `A`. -/
def descTail : List Char :=
  sL "ll notable changes to the TPVToggle mod will be documented in this file."

theorem template_decomp : changelogTemplate = preTemplate ++ descLine ++ nlnl := by decide

theorem descLine_cons : descLine = 'A' :: descTail := by decide

theorem nlnl_cons : nlnl = '\n' :: sL "\n" := by decide

theorem preTemplate_len : preTemplate.length = 13 := by decide

theorem descLine_len : descLine.length = 73 := by decide

theorem changelogTemplate_len : changelogTemplate.length = 88 := by decide

theorem preTemplate_no_A : ∀ c ∈ preTemplate, c ≠ 'A' := by decide

theorem descLine_no_nl : ∀ c ∈ descLine, c ≠ '\n' := by decide

theorem findAux_desc_template (X : List Char) :
    findAux descLine (changelogTemplate ++ X) = some 13 := by
  have hshape : changelogTemplate ++ X = preTemplate ++ (descLine ++ (nlnl ++ X)) := by
    rw [template_decomp]
    simp [List.append_assoc]
  rw [hshape, descLine_cons,
    findAux_skip_head 'A' descTail preTemplate (('A' :: descTail) ++ (nlnl ++ X))
      preTemplate_no_A,
    findAux_self ('A' :: descTail) (nlnl ++ X) (by simp)]
  rw [preTemplate_len]
  rfl

theorem findAux_nlnl_after_desc (X : List Char) :
    findAux nlnl (descLine ++ (nlnl ++ X)) = some 73 := by
  have hnl : ∀ c ∈ descLine, c ≠ '\n' := descLine_no_nl
  rw [nlnl_cons,
    findAux_skip_head '\n' (sL "\n") descLine ((('\n' :: sL "\n")) ++ X) hnl,
    findAux_self ('\n' :: sL "\n") X (by simp)]
  rw [descLine_len]
  rfl

theorem pyFindI_desc_template (X : List Char) :
    pyFindI descLine (changelogTemplate ++ X) 0 = 13 := by
  simp only [pyFindI]
  norm_num
  rw [findAux_desc_template X]
  rfl

theorem pyFindI_nlnl_template (X : List Char) :
    pyFindI nlnl (changelogTemplate ++ X) 13 = 86 := by
  simp only [pyFindI]
  have hlen : (changelogTemplate ++ X).length = 88 + X.length := by
    simp [changelogTemplate_len]
  have hs : ((if (13 : Int) < 0 then ((changelogTemplate ++ X).length : Int) + 13
      else 13)).toNat = 13 := by
    rw [if_neg (by decide : ¬ (13 : Int) < 0)]
    rfl
  rw [hs]
  rw [if_neg (by omega)]
  have hdrop : (changelogTemplate ++ X).drop 13 = descLine ++ (nlnl ++ X) := by
    have hshape : changelogTemplate ++ X = preTemplate ++ (descLine ++ (nlnl ++ X)) := by
      rw [template_decomp]
      simp [List.append_assoc]
    rw [hshape, show (13 : Nat) = preTemplate.length from preTemplate_len.symm,
      List.drop_left]
  rw [hdrop, findAux_nlnl_after_desc X]
  rfl

theorem insertPos_template (X : List Char) :
    insertPos (changelogTemplate ++ X) = changelogTemplate.length := by
  simp only [insertPos, pyFindI_desc_template X]
  rw [if_pos (by decide : (13 : Int) ≠ -1), pyFindI_nlnl_template X]
  rw [changelogTemplate_len]
  rfl

theorem take_template (X : List Char) :
    (changelogTemplate ++ X).take changelogTemplate.length = changelogTemplate :=
  List.take_left _ _

theorem drop_template (X : List Char) :
    (changelogTemplate ++ X).drop changelogTemplate.length = X :=
  List.drop_left _ _

/-! ### Link matching and removal lemmas -/

theorem matchLinkAt_length (s : List Char) (pr : List Char × List Char) (rest : List Char)
    (h : matchLinkAt s = some (pr, rest)) : rest.length < s.length := by
  cases s with
  | nil => simp [matchLinkAt] at h
  | cons c r1 =>
    by_cases hc : c = '['
    · subst hc
      simp only [matchLinkAt] at h
      by_cases h1 : (r1.takeWhile isDigitCh).isEmpty
      · simp [h1] at h
      · simp only [h1, Bool.false_eq_true, if_false] at h
        cases h2 : r1.dropWhile isDigitCh with
        | nil => rw [h2] at h; simp at h
        | cons c2 r2 =>
          rw [h2] at h
          by_cases hc2 : c2 = '.'
          · subst hc2
            by_cases h3 : (r2.takeWhile isDigitCh).isEmpty
            · simp [h3] at h
            · simp only [h3, Bool.false_eq_true, if_false] at h
              cases h4 : r2.dropWhile isDigitCh with
              | nil => rw [h4] at h; simp at h
              | cons c3 r3 =>
                rw [h4] at h
                by_cases hc3 : c3 = '.'
                · subst hc3
                  by_cases h5 : (r3.takeWhile isDigitCh).isEmpty
                  · simp [h5] at h
                  · simp only [h5, Bool.false_eq_true, if_false] at h
                    cases h6 : dropPre (sL "]: ") (r3.dropWhile isDigitCh) with
                    | none => rw [h6] at h; simp at h
                    | some r4 =>
                      rw [h6] at h
                      simp only [Option.some.injEq, Prod.mk.injEq] at h
                      have hrest : rest = r4.dropWhile (fun c => !(c = '\n')) := h.2.symm
                      have l0 : rest.length ≤ r4.length := by
                        rw [hrest]; exact dropWhile_length_le _ _
                      have e6 : r3.dropWhile isDigitCh = sL "]: " ++ r4 :=
                        dropPre_eq_some _ _ _ h6
                      have l1 : r4.length + 3 = (r3.dropWhile isDigitCh).length := by
                        rw [e6]; simp [sL]
                      have l2 : (r3.dropWhile isDigitCh).length ≤ r3.length :=
                        dropWhile_length_le _ _
                      have l3 : r3.length + 1 ≤ (r2.dropWhile isDigitCh).length := by
                        rw [h4]; simp
                      have l4 : (r2.dropWhile isDigitCh).length ≤ r2.length :=
                        dropWhile_length_le _ _
                      have l5 : r2.length + 1 ≤ (r1.dropWhile isDigitCh).length := by
                        rw [h2]; simp
                      have l6 : (r1.dropWhile isDigitCh).length ≤ r1.length :=
                        dropWhile_length_le _ _
                      simp only [List.length_cons]
                      omega
                · split at h
                  · rename_i heq
                    injection heq with he1 he2
                    exact absurd he1 hc3
                  · exact absurd h (by simp)
          · split at h
            · rename_i heq
              injection heq with he1 he2
              exact absurd he1 hc2
            · exact absurd h (by simp)
    · have : matchLinkAt (c :: r1) = none := by
        unfold matchLinkAt
        split
        · rename_i heq
          injection heq with he1 he2
          exact absurd he1 hc
        · rfl
      rw [this] at h
      exact absurd h (by simp)

theorem matchLinkAt_ne_bracket (c : Char) (t : List Char) (h : c ≠ '[') :
    matchLinkAt (c :: t) = none := by
  unfold matchLinkAt
  split
  · rename_i heq
    injection heq with he1 he2
    exact absurd he1 h
  · rfl

theorem matchNLLinkAt_ne_nl (c : Char) (t : List Char) (h : c ≠ '\n') :
    matchNLLinkAt (c :: t) = none := by
  unfold matchNLLinkAt
  split
  · rename_i heq
    injection heq with he1 he2
    exact absurd he1 h
  · rfl

theorem matchNLLinkAt_length (c : Char) (t rest : List Char)
    (h : matchNLLinkAt (c :: t) = some rest) : rest.length ≤ t.length := by
  by_cases hc : c = '\n'
  · subst hc
    simp only [matchNLLinkAt, Option.map_eq_some'] at h
    obtain ⟨⟨pr, r⟩, hm, hr⟩ := h
    subst hr
    exact Nat.le_of_lt (matchLinkAt_length t pr r hm)
  · rw [matchNLLinkAt_ne_nl c t hc] at h
    exact absurd h (by simp)

theorem subLinksAux_fuel (f₁ f₂ : Nat) (s : List Char)
    (h₁ : s.length ≤ f₁) (h₂ : s.length ≤ f₂) :
    subLinksAux f₁ s = subLinksAux f₂ s := by
  induction f₁ generalizing f₂ s with
  | zero =>
    have hs : s = [] := by
      cases s with
      | nil => rfl
      | cons c t => simp at h₁
    subst hs
    cases f₂ <;> rfl
  | succ g ih =>
    cases s with
    | nil => cases f₂ <;> rfl
    | cons c t =>
      cases f₂ with
      | zero => simp at h₂
      | succ g₂ =>
        simp only [subLinksAux]
        simp only [List.length_cons] at h₁ h₂
        cases hm : matchNLLinkAt (c :: t) with
        | none =>
          show c :: subLinksAux g t = c :: subLinksAux g₂ t
          rw [ih g₂ t (by omega) (by omega)]
        | some rest =>
          have hl := matchNLLinkAt_length c t rest hm
          show subLinksAux g rest = subLinksAux g₂ rest
          rw [ih g₂ rest (by omega) (by omega)]

theorem subLinks_cons_none (c : Char) (t : List Char) (h : matchNLLinkAt (c :: t) = none) :
    subLinks (c :: t) = c :: subLinks t := by
  show subLinksAux (t.length + 1) (c :: t) = c :: subLinksAux t.length t
  simp only [subLinksAux, h]

theorem subLinks_skip_noNL (A R : List Char) (hA : ∀ c ∈ A, c ≠ '\n') :
    subLinks (A ++ R) = A ++ subLinks R := by
  induction A with
  | nil => rfl
  | cons c t ih =>
    rw [List.cons_append,
      subLinks_cons_none c (t ++ R) (matchNLLinkAt_ne_nl c _ (hA c (by simp))),
      ih (fun x hx => hA x (List.mem_cons_of_mem _ hx))]
    rfl

/-- Pairwise safety of a block against the `\n[` pattern start, relative to
the first character that follows the block. -/
def nlSafe : List Char → Char → Bool
  | [], _ => true
  | [c], nx => !(c = '\n') || !(nx = '[')
  | c :: d :: t, nx => (!(c = '\n') || !(d = '[')) && nlSafe (d :: t) nx

theorem matchNLLinkAt_none_of_pair (c e : Char) (t : List Char)
    (h : c ≠ '\n' ∨ e ≠ '[') : matchNLLinkAt (c :: e :: t) = none := by
  rcases h with h | h
  · exact matchNLLinkAt_ne_nl c _ h
  · by_cases hc : c = '\n'
    · subst hc
      show (matchLinkAt (e :: t)).map Prod.snd = none
      rw [matchLinkAt_ne_bracket e t h]
      rfl
    · exact matchNLLinkAt_ne_nl c _ hc

theorem subLinks_skip_safe (A R : List Char) (nx : Char)
    (hA : nlSafe A nx = true) (hR : R.head? = some nx) :
    subLinks (A ++ R) = A ++ subLinks R := by
  induction A with
  | nil => rfl
  | cons c t ih =>
    cases t with
    | nil =>
      have hpair : c ≠ '\n' ∨ nx ≠ '[' := by
        simp only [nlSafe, Bool.or_eq_true, Bool.not_eq_eq_eq_not, Bool.not_true,
          decide_eq_false_iff_not] at hA
        exact hA
      cases R with
      | nil => simp at hR
      | cons r rs =>
        simp only [List.head?, Option.some.injEq] at hR
        subst hR
        rw [List.cons_append, List.nil_append,
          subLinks_cons_none c (r :: rs) (matchNLLinkAt_none_of_pair c r rs hpair)]
        rfl
    | cons d t2 =>
      have hpair : c ≠ '\n' ∨ d ≠ '[' := by
        simp only [nlSafe, Bool.and_eq_true, Bool.or_eq_true, Bool.not_eq_eq_eq_not,
          Bool.not_true, decide_eq_false_iff_not] at hA
        exact hA.1
      have hA2 : nlSafe (d :: t2) nx = true := by
        simp only [nlSafe, Bool.and_eq_true] at hA
        exact hA.2
      rw [List.cons_append,
        subLinks_cons_none c ((d :: t2) ++ R)
          (by
            rw [List.cons_append]
            exact matchNLLinkAt_none_of_pair c d (t2 ++ R) hpair),
        ih hA2]
      rfl

theorem dropWhile_append_stop (p : Char → Bool) (X Y : List Char) (a : Char)
    (ha : p a = false) : (X ++ a :: Y).dropWhile p = X.dropWhile p ++ a :: Y := by
  induction X with
  | nil =>
    rw [List.nil_append, List.dropWhile_nil, List.nil_append,
      List.dropWhile_cons_of_neg (by simp [ha])]
  | cons c t ih =>
    by_cases hc : p c = true
    · rw [List.cons_append, List.dropWhile_cons_of_pos hc, ih,
        List.dropWhile_cons_of_pos hc]
    · rw [List.cons_append, List.dropWhile_cons_of_neg (by simpa using hc),
        List.dropWhile_cons_of_neg (by simpa using hc), List.cons_append]

theorem pyRStrip_append_stop (A B : List Char) (a : Char) (ha : isWSCh a = false) :
    pyRStrip ((A ++ [a]) ++ B) = (A ++ [a]) ++ pyRStrip B := by
  unfold pyRStrip
  rw [List.reverse_append, List.reverse_append]
  have h1 : ([a] : List Char).reverse ++ A.reverse = a :: A.reverse := by simp
  rw [h1, dropWhile_append_stop isWSCh B.reverse A.reverse a ha, List.reverse_append]
  simp

theorem pySplitAux_at_sep (sep T' acc : List Char) (g : Nat) (hsep : sep ≠ []) :
    pySplitAux sep (g + 1) acc (sep ++ T') = acc.reverse :: pySplitAux sep g [] T' := by
  have hdl : (sep ++ T').drop sep.length = T' := List.drop_left sep T'
  cases sep with
  | nil => exact absurd rfl hsep
  | cons d s2 =>
    have hsw := startsWithL_append_self (d :: s2) T'
    rw [List.cons_append] at hsw hdl ⊢
    simp only [pySplitAux, hsw, if_true, hdl]

theorem ne_A_of_digit (c : Char) (h : isDigitCh c = true) : c ≠ 'A' := by
  intro hc
  subst hc
  revert h
  decide

theorem not_ws_of_digitdot (c : Char) (h : isDigitCh c = true ∨ c = '.') :
    isWSCh c = false := by
  rcases h with h | h
  · exact not_ws_of_digit c h
  · subst h
    decide

theorem sectionGuard_no_A (version : List Char)
    (hv : ∀ x ∈ version, isDigitCh x = true ∨ x = '.') :
    ∀ c ∈ sectionGuard version, c ≠ 'A' := by
  intro c hc
  simp only [sectionGuard, List.append_assoc, List.mem_append] at hc
  rcases hc with hc | hc | hc
  · exact (by decide : ∀ x ∈ sL "## [", x ≠ 'A') c hc
  · rcases hv c hc with h | h
    · exact ne_A_of_digit c h
    · subst h; decide
  · exact (by decide : ∀ x ∈ sL "]", x ≠ 'A') c hc

theorem ne_nl_of_digit (c : Char) (h : isDigitCh c = true) : c ≠ '\n' := by
  intro hc
  subst hc
  revert h
  decide

theorem sectionGuard_no_nl (version : List Char)
    (hv : ∀ x ∈ version, isDigitCh x = true ∨ x = '.') :
    ∀ c ∈ sectionGuard version, c ≠ '\n' := by
  intro c hc
  simp only [sectionGuard, List.append_assoc, List.mem_append] at hc
  rcases hc with hc | hc | hc
  · exact (by decide : ∀ x ∈ sL "## [", x ≠ '\n') c hc
  · rcases hv c hc with h | h
    · exact ne_nl_of_digit c h
    · subst h; decide
  · exact (by decide : ∀ x ∈ sL "]", x ≠ '\n') c hc

theorem sectionGuard_head (version R : List Char) :
    (sectionGuard version ++ R).head? = some '#' := rfl

theorem sectionGuard_snoc (version : List Char) :
    sectionGuard version = (sL "## [" ++ version) ++ [']'] := by
  simp [sectionGuard, sL]

theorem nlSafe_template : nlSafe changelogTemplate '#' = true := by decide

theorem subLinks_template_guard (version Rest : List Char)
    (hnl : ∀ c ∈ sectionGuard version, c ≠ '\n') :
    subLinks (changelogTemplate ++ (sectionGuard version ++ Rest)) =
      changelogTemplate ++ (sectionGuard version ++ subLinks Rest) := by
  rw [subLinks_skip_safe changelogTemplate (sectionGuard version ++ Rest) '#'
    nlSafe_template (sectionGuard_head version Rest),
    subLinks_skip_noNL (sectionGuard version) Rest hnl]

theorem pyRStrip_template_guard (version Z : List Char) :
    pyRStrip (changelogTemplate ++ (sectionGuard version ++ Z)) =
      changelogTemplate ++ (sectionGuard version ++ pyRStrip Z) := by
  have hsh : changelogTemplate ++ (sectionGuard version ++ Z) =
      ((changelogTemplate ++ (sL "## [" ++ version)) ++ [']']) ++ Z := by
    rw [sectionGuard_snoc]
    simp [List.append_assoc]
  rw [hsh, pyRStrip_append_stop _ Z ']' (by decide), sectionGuard_snoc]
  simp [List.append_assoc]

theorem contentOf_template_shape (file : Option (List Char))
    (hfile : file = none ∨ ∃ cdoc, file = some cdoc ∧ occursIn chHdr cdoc = true) :
    ∃ X, contentOf file = changelogTemplate ++ X := by
  rcases hfile with rfl | ⟨cdoc, rfl, hch⟩
  · exact ⟨[], by simp [contentOf]⟩
  · show ∃ X, normalizeChangelog cdoc = changelogTemplate ++ X
    unfold normalizeChangelog
    rw [if_pos hch]
    by_cases han : occursIn allNotable cdoc = true
    · rw [if_pos han]
      by_cases hlen : 1 < (pySplit descLine cdoc).length
      · rw [if_pos hlen]
        exact ⟨_, rfl⟩
      · rw [if_neg hlen]
        exact ⟨[], by simp⟩
    · rw [if_neg han]
      exact ⟨_, rfl⟩

theorem updatedDoc_template (version title entry X : List Char) :
    updatedDoc version title entry (changelogTemplate ++ X) =
      changelogTemplate ++ (sectionGuard version ++
        ((if title.isEmpty then [] else sL " - " ++ title) ++
          (nlnl ++ (fmtEntry entry ++ (nlnl ++ X))))) := by
  unfold updatedDoc
  rw [insertPos_template X, take_template X, drop_template X]
  simp [newSection, versionHdr, List.append_assoc]

/-- Every successful update on an absent file, or on one containing
`"# Changelog"`, writes a document of the form: template, then the target
version's section header, then the rest. -/
theorem update_changelog_shape (version title entry : List Char)
    (file : Option (List Char)) (out : List Char)
    (hnl : ∀ c ∈ sectionGuard version, c ≠ '\n')
    (hfile : file = none ∨ ∃ cdoc, file = some cdoc ∧ occursIn chHdr cdoc = true)
    (h : update_changelog version title entry file = some out) :
    ∃ Z, out = changelogTemplate ++ (sectionGuard version ++ Z) := by
  obtain ⟨hguard, happ⟩ := update_changelog_some version title entry file out h
  obtain ⟨X, hX⟩ := contentOf_template_shape file hfile
  rw [hX] at happ
  obtain ⟨ls, hs, hout⟩ := applyChangelog_some version title entry _ out happ
  rw [updatedDoc_template version title entry X,
    subLinks_template_guard version _ hnl, pyRStrip_template_guard version _] at hout
  refine ⟨pyRStrip (subLinks ((if title.isEmpty then [] else sL " - " ++ title) ++
    (nlnl ++ (fmtEntry entry ++ (nlnl ++ X))))) ++ sL "\n" ++ linkBlock ls ++ sL "\n", ?_⟩
  rw [hout]
  simp [List.append_assoc]

theorem template_chHdr_decomp :
    changelogTemplate = chHdr ++
      sL "\n\nAll notable changes to the TPVToggle mod will be documented in this file.\n\n" := by
  decide

theorem template_allNotable_decomp :
    changelogTemplate = preTemplate ++
      (allNotable ++ sL " to the TPVToggle mod will be documented in this file.\n\n") := by
  decide

/-- A document of the template-then-target-section shape makes the next
update with the same version a guaranteed no-op: the self-repair rebuilds
the document from the template plus the rescued tail, the rescued tail
still starts with the target's section header, so the duplicate guard
fires and nothing is written. -/
theorem update_changelog_guard_shape (version title entry Z : List Char)
    (hvA : ∀ c ∈ sectionGuard version, c ≠ 'A') :
    update_changelog version title entry
      (some (changelogTemplate ++ (sectionGuard version ++ Z))) = none := by
  apply update_changelog_of_guard
  show occursIn (sectionGuard version)
    (normalizeChangelog (changelogTemplate ++ (sectionGuard version ++ Z))) = true
  have hch : occursIn chHdr (changelogTemplate ++ (sectionGuard version ++ Z)) = true := by
    rw [template_chHdr_decomp, List.append_assoc]
    exact occursIn_of_startsWithL _ _ (startsWithL_append_self chHdr _)
  have han : occursIn allNotable (changelogTemplate ++ (sectionGuard version ++ Z)) = true := by
    rw [template_allNotable_decomp]
    have := occursIn_mid allNotable preTemplate
      (sL " to the TPVToggle mod will be documented in this file.\n\n" ++
        (sectionGuard version ++ Z))
    simpa [List.append_assoc] using this
  unfold normalizeChangelog
  rw [if_pos hch, if_pos han]
  have hdoc2 : changelogTemplate ++ (sectionGuard version ++ Z) =
      preTemplate ++ (descLine ++ (nlnl ++ (sectionGuard version ++ Z))) := by
    rw [template_decomp]
    simp [List.append_assoc]
  have hsplit : ∃ g, pySplit descLine (changelogTemplate ++ (sectionGuard version ++ Z)) =
      preTemplate :: pySplitAux descLine g [] (nlnl ++ (sectionGuard version ++ Z)) := by
    refine ⟨(descLine ++ (nlnl ++ (sectionGuard version ++ Z))).length, ?_⟩
    show pySplitAux descLine
      ((changelogTemplate ++ (sectionGuard version ++ Z)).length + 1) []
      (changelogTemplate ++ (sectionGuard version ++ Z)) = _
    have hdl : (changelogTemplate ++ (sectionGuard version ++ Z)).length + 1 =
        ((descLine ++ (nlnl ++ (sectionGuard version ++ Z))).length + 13) + 1 := by
      rw [hdoc2]
      simp only [List.length_append, preTemplate_len]
      omega
    rw [hdl]
    conv_lhs => rw [hdoc2]
    rw [descLine_cons]
    rw [pySplitAux_skipA 'A' descTail preTemplate _ [] _ preTemplate_no_A
      (by rw [preTemplate_len]; omega)]
    rw [preTemplate_len]
    have harith : (('A' :: descTail) ++ (nlnl ++ (sectionGuard version ++ Z))).length +
        13 + 1 - 13 =
        (('A' :: descTail) ++ (nlnl ++ (sectionGuard version ++ Z))).length + 1 := by
      omega
    rw [harith]
    rw [pySplitAux_at_sep ('A' :: descTail) (nlnl ++ (sectionGuard version ++ Z))
      (preTemplate.reverse ++ []) _ (by simp)]
    simp
  obtain ⟨g, hsplit⟩ := hsplit
  have hlen : 1 < (pySplit descLine (changelogTemplate ++ (sectionGuard version ++ Z))).length := by
    rw [hsplit]
    cases h2 : pySplitAux descLine g [] (nlnl ++ (sectionGuard version ++ Z)) with
    | nil => exact absurd h2 (pySplitAux_ne_nil descLine g [] _)
    | cons a b => simp
  rw [if_pos hlen]
  have hgetD : ∃ W,
      (pySplit descLine (changelogTemplate ++ (sectionGuard version ++ Z))).getD 1 [] =
        (nlnl ++ sectionGuard version) ++ W := by
    rw [hsplit]
    have hEq2 : ∀ (l : List (List Char)), l.getD 0 [] = l.headD [] := by
      intro l
      cases l <;> rfl
    have hEq : (preTemplate :: pySplitAux descLine g []
        (nlnl ++ (sectionGuard version ++ Z))).getD 1 [] =
        (pySplitAux descLine g [] (nlnl ++ (sectionGuard version ++ Z))).headD [] := by
      rw [show (preTemplate :: pySplitAux descLine g []
        (nlnl ++ (sectionGuard version ++ Z))).getD 1 [] =
        (pySplitAux descLine g [] (nlnl ++ (sectionGuard version ++ Z))).getD 0 [] from rfl,
        hEq2]
    rw [hEq]
    have hB : ∀ c ∈ nlnl ++ sectionGuard version, c ≠ 'A' := by
      intro c hc
      rcases List.mem_append.mp hc with hc | hc
      · exact (by decide : ∀ x ∈ nlnl, x ≠ 'A') c hc
      · exact hvA c hc
    have hassoc : nlnl ++ (sectionGuard version ++ Z) =
        (nlnl ++ sectionGuard version) ++ Z := by
      simp [List.append_assoc]
    rw [hassoc, descLine_cons]
    obtain ⟨W, hW⟩ :=
      pySplitAux_first_noSep 'A' descTail (nlnl ++ sectionGuard version) Z [] g hB
    exact ⟨W, by simpa using hW⟩
  obtain ⟨W, hW⟩ := hgetD
  rw [hW]
  have hstrip : pyStrip ((nlnl ++ sectionGuard version) ++ W) =
      sectionGuard version ++ pyRStrip W := by
    unfold pyStrip pyLStrip
    have hdw := (takeWhile_append_all isWSCh nlnl (sectionGuard version ++ W)
      (by decide)
      (by
        intro b hb
        rw [sectionGuard_head version W, Option.some.injEq] at hb
        subst hb
        decide)).2
    rw [List.append_assoc, hdw]
    rw [show sectionGuard version ++ W = ((sL "## [" ++ version) ++ [']']) ++ W from by
      rw [sectionGuard_snoc]]
    rw [pyRStrip_append_stop _ W ']' (by decide), ← sectionGuard_snoc]
  rw [hstrip]
  have hocc := occursIn_mid (sectionGuard version) changelogTemplate (pyRStrip W)
  simpa [List.append_assoc] using hocc

/-- C2 amended: for every version in digit-triple form and every title and
entry, if the changelog file is absent or contains `"# Changelog"` (so the
self-repair normalisation applies), then running the update twice writes
nothing the second time: the second run finds `## [version]` in the
(re-normalised) document and skips. -/
theorem claimC2_second_run_skips (version title entry : List Char)
    (file : Option (List Char)) (out : List Char)
    (hv : ∀ x ∈ version, isDigitCh x = true ∨ x = '.')
    (hfile : file = none ∨ ∃ cdoc, file = some cdoc ∧ occursIn chHdr cdoc = true)
    (h : update_changelog version title entry file = some out) :
    update_changelog version title entry (some out) = none := by
  obtain ⟨Z, hZ⟩ := update_changelog_shape version title entry file out
    (sectionGuard_no_nl version hv) hfile h
  rw [hZ]
  exact update_changelog_guard_shape version title entry Z (sectionGuard_no_A version hv)

/-- The document written by a first run on an absent changelog. -/
def secondRunDoc : List Char := (update_changelog (sL "1.0.0") [] (sL "- x") none).getD []

/-- Witness for C2: a concrete first run on an absent file, then the second
run writes nothing. -/
theorem claimC2_witness :
    update_changelog (sL "1.0.0") [] (sL "- x") (some secondRunDoc) = none :=
  claimC2_second_run_skips (sL "1.0.0") [] (sL "- x") none secondRunDoc
    (by decide) (Or.inl rfl) (by decide)

/-- The document a first run writes for the file `"A"` with an entry that
contains the literal `"# Changelog"`. -/
def nonNormalizedOut : List Char :=
  (update_changelog (sL "1.0.0") [] (sL "# Changelog text") (some (sL "A"))).getD []

/-- C2 counterexample: starting from the file `"A"` (which does not contain
`"# Changelog"`) with the entry `"# Changelog text"`, the first run embeds
`"# Changelog"` in the body; the second run's self-repair then discards the
part of the document holding `## [1.0.0]`, the duplicate guard does not
fire, and the second run WRITES a different document — not the claimed
skip-and-leave-unchanged. -/
theorem claimC2_counterexample :
    update_changelog (sL "1.0.0") [] (sL "# Changelog text") (some (sL "A")) =
      some nonNormalizedOut ∧
    update_changelog (sL "1.0.0") [] (sL "# Changelog text") (some nonNormalizedOut) ≠
      none ∧
    update_changelog (sL "1.0.0") [] (sL "# Changelog text") (some nonNormalizedOut) ≠
      some nonNormalizedOut := by
  refine ⟨by decide, by decide, by decide⟩

/-- C8 amended: for every existing changelog containing `"# Changelog"` (so
the normalisation applies) that does not already hold the target section, a
successful update splices the new section at the insertion point — the
first blank-line pair after the description sentence, which after
normalisation is exactly the end of the template — and the new `## [`
header is the first one in the written output, ahead of every pre-existing
section. -/
theorem claimC8_new_section_first (version title entry cdoc out : List Char)
    (hv : ∀ x ∈ version, isDigitCh x = true ∨ x = '.')
    (hch : occursIn chHdr cdoc = true)
    (h : update_changelog version title entry (some cdoc) = some out) :
    insertPos (normalizeChangelog cdoc) = changelogTemplate.length ∧
    ∃ Z, out = changelogTemplate ++ (sectionGuard version ++ Z) ∧
      pyFindI (sL "## [") out 0 = (changelogTemplate.length : Int) := by
  obtain ⟨X, hX⟩ := contentOf_template_shape (some cdoc) (Or.inr ⟨cdoc, rfl, hch⟩)
  have hX' : normalizeChangelog cdoc = changelogTemplate ++ X := hX
  obtain ⟨Z, hZ⟩ := update_changelog_shape version title entry (some cdoc) out
    (sectionGuard_no_nl version hv) (Or.inr ⟨cdoc, rfl, hch⟩) h
  refine ⟨?_, Z, hZ, ?_⟩
  · rw [hX', insertPos_template]
  · rw [hZ]
    have hsh : changelogTemplate ++ (sectionGuard version ++ Z) =
        changelogTemplate ++ (sL "## [" ++ (version ++ (sL "]" ++ Z))) := by
      simp [sectionGuard, List.append_assoc]
    rw [hsh]
    simp only [pyFindI]
    norm_num
    rw [findAux_skip_mm (sL "## [") changelogTemplate _ (by decide),
      findAux_self (sL "## [") _ (by decide)]
    rw [changelogTemplate_len]
    rfl

/-- A malformed changelog containing `"# Changelog"` but no description
sentence, used by the C8 witness. -/
def malformedDoc : List Char := sL "# Changelog\njunk"

/-- The document a successful update writes for `malformedDoc`. -/
def repairedOut : List Char :=
  (update_changelog (sL "0.9.0") [] (sL "- y") (some malformedDoc)).getD []

/-- Witness for C8 at a concrete malformed-but-repairable file. -/
theorem claimC8_witness :
    insertPos (normalizeChangelog malformedDoc) = changelogTemplate.length ∧
    ∃ Z, repairedOut = changelogTemplate ++ (sectionGuard (sL "0.9.0") ++ Z) ∧
      pyFindI (sL "## [") repairedOut 0 = (changelogTemplate.length : Int) :=
  claimC8_new_section_first (sL "0.9.0") [] (sL "- y") malformedDoc repairedOut
    (by decide) (by decide) (by decide)

/-- A changelog whose only section sits BEFORE the description sentence and
that does not contain `"# Changelog"`, so no normalisation applies. -/
def preDescDoc : List Char := sL "## [0.1.0]\n\n- a\n\n" ++ descLine ++ nlnl

/-- What the update writes for `preDescDoc`. -/
def preDescOut : List Char :=
  sL "## [0.1.0]\n\n- a\n\n" ++ descLine ++
    sL "\n\n## [0.2.0]\n\n- new\n\n[0.2.0]: https://github.com/tkhquang/KCD2Tools/releases/tag/TPVToggle-v0.2.0\n"

/-- C8 counterexample: on `preDescDoc` the update succeeds and splices the
new section immediately after the first blank-line pair following the
description sentence, yet the input's existing section `## [0.1.0]` remains
at offset 0 of the output while the new `## [0.2.0]` lands at offset 92 —
the new section does NOT appear before every pre-existing one. -/
theorem claimC8_counterexample :
    update_changelog (sL "0.2.0") [] (sL "- new") (some preDescDoc) = some preDescOut ∧
    occursIn (sL "## [0.1.0]") preDescDoc = true ∧
    pyFindI (sL "## [0.1.0]") preDescOut 0 = 0 ∧
    pyFindI (sL "## [0.2.0]") preDescOut 0 = 92 := by
  refine ⟨by decide, by decide, by decide, by decide⟩
